import Mathlib

/-!
# session_manager: in-memory session provider and session manager

A shallow embedding of `memory/memory.go` and `session/session.go`.

* Go strings are byte sequences (`GoString`).
* `time.Time` is an integer count of nanoseconds since the Unix epoch; `Time.Unix`
  is the whole number of seconds, as `time.Time.Unix()` reports it.
* Go maps are association lists read through `mapGet`, written through `mapSet`
  and `mapDelete`; no code of the repository ranges over a map, so the order of
  the entries is never observed.
* Pointers are addresses into `Provider.heap`. Every `*list.Element` is created by
  `PushBack` in `SessionInit` with `Value` the `*SessionStore` allocated on the line
  before and is never assigned again, so an element and its store share one address.
* `container/list` is a list of element addresses from front to back. An element
  occurs at most once in a linked list, so `Remove` drops the address wherever it is.
* `time.Now()` is an argument of every operation that reads the clock.
* `interface{}` values are `Option V` with `none` for `nil`. An `interface{}` key of a
  value map is a `Key K`: a value of a type `K` with decidable equality (comparable
  dynamic type, equal to itself), a value that is not equal to itself (a NaN float, or
  an array or struct holding one), or a value of a dynamic type that cannot be hashed
  (slice, map, func), on which every map operation panics.
* A call that can panic returns an `Outcome`; the state next to it is the provider
  state at the moment of the return or of the panic.
-/

namespace memory

/-- One byte of a Go string. -/
abbrev Byte := Fin 256

/-- Go `string`: a sequence of bytes. -/
abbrev GoString := List Byte

/-- Go `time.Time`, as nanoseconds since the Unix epoch. -/
abbrev Time := Int

/-- Go `error`; `none` is the `nil` error. -/
abbrev error := Option GoString

/-- Seconds since the epoch: `time.Time.Unix()`. -/
def Time.Unix (t : Time) : Int := t / 1000000000

/-- Two's complement wrap-around of an `int64` result. -/
def wrapInt64 (x : Int) : Int := (x + 9223372036854775808) % 18446744073709551616 - 9223372036854775808

section GoMap
variable {α β : Type} [DecidableEq α]

/-- Map read `v, ok := m[k]`. -/
def mapGet : List (α × β) → α → Option β
  | [], _ => none
  | (k', v) :: m, k => if k' = k then some v else mapGet m k

/-- Builtin `delete(m, k)`. -/
def mapDelete (m : List (α × β)) (k : α) : List (α × β) :=
  m.filter (fun p => decide (p.1 ≠ k))

/-- Map write `m[k] = v`. -/
def mapSet (m : List (α × β)) (k : α) (v : β) : List (α × β) :=
  (k, v) :: mapDelete m k

end GoMap

/-- `list.Remove(e)`. -/
def listRemove (l : List Nat) (e : Nat) : List Nat :=
  l.filter (fun a => decide (a ≠ e))

/-- `list.MoveToFront(e)`: nothing happens when `e` is not an element of the list. -/
def listMoveToFront (l : List Nat) (e : Nat) : List Nat :=
  if e ∈ l then e :: listRemove l e else l

/-- `list.Back()`. -/
def listBack (l : List Nat) : Option Nat := l.getLast?

/-- A dynamic value used as key of `map[interface{}]interface{}`: a comparable value
that is equal to itself, a comparable value that is not equal to itself (NaN), or a
value whose dynamic type cannot be hashed. -/
inductive Key (K : Type) where
  | val (k : K)
  | nan
  | unhashable
deriving DecidableEq

/-- The run-time panic of a map operation: `hash of unhashable type`. -/
inductive RuntimePanic where
  | unhashableKey
deriving DecidableEq

/-- How a call ends: it returns a value or it panics. -/
inductive Outcome (α : Type) where
  | returns (a : α)
  | panics (p : RuntimePanic)
deriving DecidableEq

section ValueMap
variable {K V : Type} [DecidableEq K]

/-- Lookup `v, ok := st.value[key]`: a NaN key is never found, an unhashable key
panics. -/
def valueGet (m : List (Key K × Option V)) (key : Key K) : Outcome (Option (Option V)) :=
  match key with
  | Key.val k => Outcome.returns (mapGet m (Key.val k))
  | Key.nan => Outcome.returns none
  | Key.unhashable => Outcome.panics RuntimePanic.unhashableKey

/-- Assignment `st.value[key] = value`: a NaN key always adds an entry, an unhashable
key panics. -/
def valueSet (m : List (Key K × Option V)) (key : Key K) (value : Option V) :
    Outcome (List (Key K × Option V)) :=
  match key with
  | Key.val k => Outcome.returns (mapSet m (Key.val k) value)
  | Key.nan => Outcome.returns ((Key.nan, value) :: m)
  | Key.unhashable => Outcome.panics RuntimePanic.unhashableKey

/-- Builtin `delete(st.value, key)`: a NaN key removes nothing, an unhashable key
panics. -/
def valueDelete (m : List (Key K × Option V)) (key : Key K) :
    Outcome (List (Key K × Option V)) :=
  match key with
  | Key.val k => Outcome.returns (mapDelete m (Key.val k))
  | Key.nan => Outcome.returns m
  | Key.unhashable => Outcome.panics RuntimePanic.unhashableKey

end ValueMap

/-- The struct `SessionStore`. -/
structure SessionStore (K V : Type) where
  sid : GoString
  timeAccessed : Time
  value : List (Key K × Option V)
deriving DecidableEq

/-- The struct `Provider` (`sessions`, `list`) together with the memory `heap` holding
the session stores that the list elements and the handed-out sessions point to. -/
structure Provider (K V : Type) where
  heap : List (SessionStore K V)
  sessions : List (GoString × Nat)
  list : List Nat
deriving DecidableEq

section Ops
variable {K V : Type} [DecidableEq K]

/-- The package variable `pder` after `init()`: empty map, empty list. -/
def pderInit : Provider K V := { heap := [], sessions := [], list := [] }

/-- The store behind a pointer. -/
def deref (pder : Provider K V) (a : Nat) : Option (SessionStore K V) := pder.heap[a]?

/-- Assignment `element.Value.(*SessionStore).timeAccessed = now`. -/
def setTimeAccessed (heap : List (SessionStore K V)) (a : Nat) (now : Time) : List (SessionStore K V) :=
  match heap[a]? with
  | some st => heap.set a { st with timeAccessed := now }
  | none => heap

/-- `Provider.SessionInit`: allocates a store, pushes it at the back of the list and
records it in the map. Returns the new state, the session and the error. -/
def SessionInit (pder : Provider K V) (sid : GoString) (now : Time) : Provider K V × Nat × error :=
  let newsess := pder.heap.length
  ({ heap := pder.heap ++ [{ sid := sid, timeAccessed := now, value := [] }],
     sessions := mapSet pder.sessions sid newsess,
     list := pder.list ++ [newsess] }, newsess, none)

/-- `Provider.SessionRead`. -/
def SessionRead (pder : Provider K V) (sid : GoString) (now : Time) : Provider K V × Nat × error :=
  match mapGet pder.sessions sid with
  | some element => (pder, element, none)
  | none => SessionInit pder sid now

/-- `Provider.SessionDestroy`. -/
def SessionDestroy (pder : Provider K V) (sid : GoString) : Provider K V × error :=
  match mapGet pder.sessions sid with
  | some element =>
    ({ pder with sessions := mapDelete pder.sessions sid, list := listRemove pder.list element }, none)
  | none => (pder, none)

/-- The test of `SessionGC` on the back element: `timeAccessed.Unix() + maxlifetime < time.Now().Unix()`
in `int64` arithmetic. -/
def gcExpired (st : SessionStore K V) (maxlifetime : Int) (now : Time) : Bool :=
  decide (wrapInt64 (Time.Unix st.timeAccessed + maxlifetime) < Time.Unix now)

/-- The `for` loop of `SessionGC`, at most `fuel` iterations. -/
def gcLoop (maxlifetime : Int) (now : Time) : Nat → Provider K V → Provider K V
  | 0, pder => pder
  | fuel + 1, pder =>
    match listBack pder.list with
    | none => pder
    | some element =>
      match deref pder element with
      | none => pder
      | some st =>
        if gcExpired st maxlifetime now then
          gcLoop maxlifetime now fuel
            { pder with list := listRemove pder.list element,
                        sessions := mapDelete pder.sessions st.sid }
        else pder

/-- `Provider.SessionGC`: every iteration that continues removes the back element, so
the loop ends within `list.Len()` iterations. All iterations of one sweep see the same
clock reading `now`. -/
def SessionGC (pder : Provider K V) (maxlifetime : Int) (now : Time) : Provider K V :=
  gcLoop maxlifetime now pder.list.length pder

/-- `Provider.SessionUpdate`. -/
def SessionUpdate (pder : Provider K V) (sid : GoString) (now : Time) : Provider K V × error :=
  match mapGet pder.sessions sid with
  | some element =>
    ({ pder with heap := setTimeAccessed pder.heap element now,
                 list := listMoveToFront pder.list element }, none)
  | none => (pder, none)

/-- `SessionStore.Set` on the store at address `st`: the map write, which panics on an
unhashable key before anything else happens, then `SessionUpdate`. -/
def SessionStore.Set (pder : Provider K V) (st : Nat) (key : Key K) (value : Option V)
    (now : Time) : Provider K V × Outcome error :=
  match deref pder st with
  | some s =>
    match valueSet s.value key value with
    | Outcome.returns m =>
      ((SessionUpdate { pder with heap := pder.heap.set st { s with value := m } }
          s.sid now).1, Outcome.returns none)
    | Outcome.panics p => (pder, Outcome.panics p)
  | none => (pder, Outcome.returns none)

/-- `SessionStore.Get` on the store at address `st`: `SessionUpdate` first, then the
lookup, which panics on an unhashable key. -/
def SessionStore.Get (pder : Provider K V) (st : Nat) (key : Key K) (now : Time) :
    Provider K V × Outcome (Option V) :=
  match deref pder st with
  | some s =>
    let pder1 := (SessionUpdate pder s.sid now).1
    match deref pder1 st with
    | some s1 =>
      match valueGet s1.value key with
      | Outcome.returns (some v) => (pder1, Outcome.returns v)
      | Outcome.returns none => (pder1, Outcome.returns none)
      | Outcome.panics p => (pder1, Outcome.panics p)
    | none => (pder1, Outcome.returns none)
  | none => (pder, Outcome.returns none)

/-- `SessionStore.Delete` on the store at address `st`: the `delete`, which panics on an
unhashable key before anything else happens, then `SessionUpdate`. -/
def SessionStore.Delete (pder : Provider K V) (st : Nat) (key : Key K) (now : Time) :
    Provider K V × Outcome error :=
  match deref pder st with
  | some s =>
    match valueDelete s.value key with
    | Outcome.returns m =>
      ((SessionUpdate { pder with heap := pder.heap.set st { s with value := m } }
          s.sid now).1, Outcome.returns none)
    | Outcome.panics p => (pder, Outcome.panics p)
  | none => (pder, Outcome.returns none)

/-- `SessionStore.SessionID`. -/
def SessionStore.SessionID (pder : Provider K V) (st : Nat) : GoString :=
  match deref pder st with
  | some s => s.sid
  | none => []

/-- One access to a session store with a key of comparable dynamic type that is equal
to itself. -/
inductive Access (K V : Type) where
  | get (key : K)
  | set (key : K) (value : Option V)
  | delete (key : K)
deriving DecidableEq

/-- Performs the access on the store at address `st` at time `now`. -/
def access (pder : Provider K V) (st : Nat) (op : Access K V) (now : Time) : Provider K V :=
  match op with
  | Access.get key => (SessionStore.Get pder st (Key.val key) now).1
  | Access.set key value => (SessionStore.Set pder st (Key.val key) value now).1
  | Access.delete key => (SessionStore.Delete pder st (Key.val key) now).1

/-- Looks the session of a token up with `SessionRead` and performs one access on it. -/
def touch (pder : Provider K V) (x : GoString × Access K V × Time) : Provider K V :=
  access (SessionRead pder x.1 x.2.2).1 (SessionRead pder x.1 x.2.2).2.1 x.2.1 x.2.2

/-- A sequence of accesses, first to last. -/
def touchAll (pder : Provider K V) (xs : List (GoString × Access K V × Time)) : Provider K V :=
  xs.foldl touch pder

/-- One call into the provider or into a session store, with the clock reading it sees. -/
inductive Op (K V : Type) where
  | init (sid : GoString) (now : Time)
  | read (sid : GoString) (now : Time)
  | update (sid : GoString) (now : Time)
  | destroy (sid : GoString)
  | gc (maxlifetime : Int) (now : Time)
  | store (st : Nat) (op : Access K V) (now : Time)
deriving DecidableEq

/-- Effect of one call on the provider state. -/
def step (pder : Provider K V) (op : Op K V) : Provider K V :=
  match op with
  | Op.init sid now => (SessionInit pder sid now).1
  | Op.read sid now => (SessionRead pder sid now).1
  | Op.update sid now => (SessionUpdate pder sid now).1
  | Op.destroy sid => (SessionDestroy pder sid).1
  | Op.gc maxlifetime now => SessionGC pder maxlifetime now
  | Op.store st op now => access pder st op now

/-- Runs a sequence of calls, first to last. -/
def run (pder : Provider K V) (ops : List (Op K V)) : Provider K V :=
  ops.foldl step pder

/-- Clock reading of a call, if it reads the clock. -/
def Op.clock (op : Op K V) : Option Time :=
  match op with
  | Op.init _ now => some now
  | Op.read _ now => some now
  | Op.update _ now => some now
  | Op.destroy _ => none
  | Op.gc _ now => some now
  | Op.store _ _ now => some now

/-- The clock readings of a sequence of calls never go back. -/
def clockMonotone (ops : List (Op K V)) : Prop :=
  (ops.filterMap Op.clock).Pairwise (fun t u => t ≤ u)

instance clockMonotone.decidable (ops : List (Op K V)) : Decidable (clockMonotone ops) := by
  unfold clockMonotone
  infer_instance

/-- A call other than `SessionInit`, or `SessionInit` on a token that is not in the index. -/
def Op.fresh (pder : Provider K V) (op : Op K V) : Bool :=
  match op with
  | Op.init sid _ => (mapGet pder.sessions sid).isNone
  | _ => true

/-- Every `SessionInit` of the sequence is called on a token that is not in the index
at that moment. -/
def freshInits (pder : Provider K V) : List (Op K V) → Bool
  | [] => true
  | op :: ops => Op.fresh pder op && freshInits (step pder op) ops

/-- Addresses the index records for the tokens of a sequence of accesses. -/
def handles (pder : Provider K V) (xs : List (GoString × Access K V × Time)) : List Nat :=
  xs.filterMap (fun x => mapGet pder.sessions x.1)

end Ops

section Views
variable {K V : Type}

/-- Token of the store at an address. -/
def sidOf (heap : List (SessionStore K V)) (a : Nat) : Option GoString :=
  (heap[a]?).map (fun st => st.sid)

/-- Token and access time of the store at an address: what a write to a value map
leaves alone. -/
def stamp (heap : List (SessionStore K V)) (a : Nat) : Option (GoString × Time) :=
  (heap[a]?).map (fun st => (st.sid, st.timeAccessed))

/-- Last access of the store at an address, in Unix seconds. -/
def lastAccessed (heap : List (SessionStore K V)) (a : Nat) : Option Int :=
  (heap[a]?).map (fun st => Time.Unix st.timeAccessed)

/-- The expiry test of `SessionGC` for the store at an address. -/
def expiredAt (heap : List (SessionStore K V)) (maxlifetime : Int) (now : Time) (a : Nat) : Bool :=
  match heap[a]? with
  | some st => gcExpired st maxlifetime now
  | none => false

/-- The tokens of `order`, head to tail. -/
def order (pder : Provider K V) : List GoString :=
  pder.list.filterMap (sidOf pder.heap)

/-- Index and order agree: no node occurs twice, every index entry points to a node of
the list that carries the entry's token, and every node of the list is the one the
index records for its token. -/
def Consistent (pder : Provider K V) : Prop :=
  pder.list.Nodup ∧
  (∀ p ∈ pder.sessions, ∀ a ∈ mapGet pder.sessions p.1,
    a ∈ pder.list ∧ sidOf pder.heap a = some p.1) ∧
  (∀ a ∈ pder.list, (sidOf pder.heap a).bind (mapGet pder.sessions) = some a)

instance Consistent.decidable (pder : Provider K V) : Decidable (Consistent pder) := by
  unfold Consistent
  infer_instance

/-- The list is sorted by last access, most recent at the head: the Unix seconds never
increase from head to tail. -/
def SortedByRecency (pder : Provider K V) : Prop :=
  pder.list.Pairwise (fun a b =>
    ∀ ta ∈ lastAccessed pder.heap a, ∀ tb ∈ lastAccessed pder.heap b, tb ≤ ta)

instance SortedByRecency.decidable (pder : Provider K V) : Decidable (SortedByRecency pder) := by
  unfold SortedByRecency
  infer_instance

/-- No `int64` overflow in `timeAccessed.Unix() + maxlifetime` for the sessions of the list. -/
def NoOverflow (pder : Provider K V) (maxlifetime : Int) : Prop :=
  ∀ a ∈ pder.list, ∀ t ∈ lastAccessed pder.heap a,
    -9223372036854775808 ≤ t + maxlifetime ∧ t + maxlifetime < 9223372036854775808

instance NoOverflow.decidable (pder : Provider K V) (maxlifetime : Int) :
    Decidable (NoOverflow pder maxlifetime) := by
  unfold NoOverflow
  infer_instance

/-- A session is stale at `now` when `lastAccessed + maxlifetime < now`, in Unix seconds
and unbounded integers. -/
def stale (heap : List (SessionStore K V)) (maxlifetime : Int) (now : Time) (a : Nat) : Bool :=
  match lastAccessed heap a with
  | some t => decide (t + maxlifetime < Time.Unix now)
  | none => false

/-- The state `pder'` differs from `pder` at most in the value map of the store at
`st`: same index, same order, same token and last access of every store, and every
other store as it was. -/
def sameUpToValues (st : Nat) (pder pder' : Provider K V) : Prop :=
  pder'.sessions = pder.sessions ∧ pder'.list = pder.list ∧
  (∀ a, stamp pder'.heap a = stamp pder.heap a) ∧
  ∀ a, a ≠ st → pder'.heap[a]? = pder.heap[a]?

end Views

end memory

namespace session

open memory

/-- Alphabet of `base64.URLEncoding`: `A-Z`, `a-z`, `0-9`, `-`, `_`. -/
def encodeURL (n : Nat) : Byte :=
  if n < 26 then Fin.ofNat (65 + n)
  else if n < 52 then Fin.ofNat (97 + (n - 26))
  else if n < 62 then Fin.ofNat (48 + (n - 52))
  else if n = 62 then 45
  else 95

/-- Go standard library `base64.URLEncoding.EncodeToString`: three bytes give four
characters, a last group of one or two bytes is padded with `=`. -/
def EncodeToString : List Byte → GoString
  | [] => []
  | [a] => [encodeURL (a.val / 4), encodeURL (a.val % 4 * 16), 61, 61]
  | [a, b] => [encodeURL (a.val / 4), encodeURL (a.val % 4 * 16 + b.val / 16),
      encodeURL (b.val % 16 * 4), 61]
  | a :: b :: c :: rest =>
    encodeURL (a.val / 4) :: encodeURL (a.val % 4 * 16 + b.val / 16) ::
      encodeURL (b.val % 16 * 4 + c.val / 64) :: encodeURL (c.val % 64) :: EncodeToString rest

/-- Value of a character of the alphabet of `base64.URLEncoding`. -/
def decodeURL (c : Byte) : Nat :=
  if 65 ≤ c.val ∧ c.val ≤ 90 then c.val - 65
  else if 97 ≤ c.val ∧ c.val ≤ 122 then c.val - 97 + 26
  else if 48 ≤ c.val ∧ c.val ≤ 57 then c.val - 48 + 52
  else if c.val = 45 then 62
  else 63

/-- Reads the bytes back from the groups of four characters that `EncodeToString`
writes; it serves to show that a token determines the random bytes behind it. -/
def DecodeString : GoString → List Byte
  | w :: x :: y :: z :: rest =>
    if y.val = 61 then [Fin.ofNat (decodeURL w * 4 + decodeURL x / 16)]
    else if z.val = 61 then
      [Fin.ofNat (decodeURL w * 4 + decodeURL x / 16),
       Fin.ofNat (decodeURL x % 16 * 16 + decodeURL y / 4)]
    else
      Fin.ofNat (decodeURL w * 4 + decodeURL x / 16) ::
        Fin.ofNat (decodeURL x % 16 * 16 + decodeURL y / 4) ::
        Fin.ofNat (decodeURL y % 4 * 64 + decodeURL z) :: DecodeString rest
  | _ => []

/-- Go standard library `url.shouldEscape` in query-component mode: letters, digits and
`-`, `_`, `.`, `~` stay, every other byte is escaped. -/
def shouldEscape (c : Byte) : Bool :=
  !((97 ≤ c.val && c.val ≤ 122) || (65 ≤ c.val && c.val ≤ 90) || (48 ≤ c.val && c.val ≤ 57)
    || c.val = 45 || c.val = 95 || c.val = 46 || c.val = 126)

/-- Digit of `upperhex = "0123456789ABCDEF"`. -/
def upperhex (n : Nat) : Byte :=
  if n < 10 then Fin.ofNat (48 + n) else Fin.ofNat (55 + n)

/-- Go standard library `url.QueryEscape`: a space becomes `+`, a byte to escape
becomes `%XX`. -/
def QueryEscape : GoString → GoString
  | [] => []
  | c :: s =>
    if shouldEscape c then
      if c.val = 32 then 43 :: QueryEscape s
      else 37 :: upperhex (c.val / 16) :: upperhex (c.val % 16) :: QueryEscape s
    else c :: QueryEscape s

/-- Go standard library `url.ishex`. -/
def ishex (c : Byte) : Bool :=
  (48 ≤ c.val && c.val ≤ 57) || (97 ≤ c.val && c.val ≤ 102) || (65 ≤ c.val && c.val ≤ 70)

/-- Go standard library `url.unhex`. -/
def unhex (c : Byte) : Nat :=
  if 48 ≤ c.val ∧ c.val ≤ 57 then c.val - 48
  else if 97 ≤ c.val ∧ c.val ≤ 102 then c.val - 97 + 10
  else if 65 ≤ c.val ∧ c.val ≤ 70 then c.val - 65 + 10
  else 0

/-- Position of the decoder of `url.unescape` inside a `%XX` triple. -/
inductive Pending where
  | start
  | percent
  | high (h : Byte)
deriving DecidableEq

/-- Go standard library `url.unescape` in query-component mode: `%XX` gives the byte
`XX`, `+` gives a space, a `%` not followed by two hex digits is an error (`none`). -/
def unescape : Pending → GoString → Option GoString
  | Pending.start, [] => some []
  | Pending.start, c :: s =>
    if c.val = 37 then unescape Pending.percent s
    else if c.val = 43 then (unescape Pending.start s).map (fun r => 32 :: r)
    else (unescape Pending.start s).map (fun r => c :: r)
  | Pending.percent, [] => none
  | Pending.percent, h :: s => if ishex h then unescape (Pending.high h) s else none
  | Pending.high _, [] => none
  | Pending.high h, l :: s =>
    if ishex l then (unescape Pending.start s).map (fun r => Fin.ofNat (unhex h * 16 + unhex l) :: r)
    else none

/-- Go standard library `url.QueryUnescape`: on an error the string returned is empty. -/
def QueryUnescape (s : GoString) : GoString × error :=
  match unescape Pending.start s with
  | some r => (r, none)
  | none => ([], some [])

/-- The fields of `http.Cookie` that the manager sets. -/
structure Cookie where
  Name : GoString
  Value : GoString
  Path : GoString
  HttpOnly : Bool
  Expires : Option Time
  MaxAge : Int
deriving DecidableEq

/-- The cookies of an `http.Request`, as name and value, in header order. -/
structure Request where
  cookies : List (GoString × GoString)
deriving DecidableEq

/-- `http.Request.Cookie`: the first cookie of that name, `none` for `ErrNoCookie`.
Parsing the header and checking cookie names is the business of `net/http` and outside
the model: a request is the list of cookies it presents. -/
def Request.Cookie (r : Request) (name : GoString) : Option GoString :=
  mapGet r.cookies name

/-- The struct `Manager`; its `provider` is the package variable `pder` of `memory`,
the one provider the repository registers. -/
structure Manager where
  cookieName : GoString
  maxlifetime : Int
deriving DecidableEq

/-- `Manager.sessionId`: `rnd` is what `io.ReadFull(rand.Reader, b)` delivered for the
32 byte buffer, `none` when the read failed. -/
def Manager.sessionId (rnd : Option (List Byte)) : GoString :=
  match rnd with
  | none => []
  | some b => EncodeToString b

section Ops
variable {K V : Type} [DecidableEq K]

/-- `Manager.SessionStart`: returns the provider state, the session and the cookies
handed to `http.SetCookie`. `int` has 64 bits, so `int(manager.maxlifetime)` is the
same number. -/
def Manager.SessionStart (manager : Manager) (pder : Provider K V) (r : Request)
    (rnd : Option (List Byte)) (now : Time) : Provider K V × Nat × List Cookie :=
  match r.Cookie manager.cookieName with
  | some value =>
    if value = [] then
      let sid := Manager.sessionId rnd
      let res := SessionInit pder sid now
      (res.1, res.2.1, [{ Name := manager.cookieName, Value := QueryEscape sid, Path := [47],
                          HttpOnly := true, Expires := none, MaxAge := manager.maxlifetime }])
    else
      let sid := (QueryUnescape value).1
      let res := SessionRead pder sid now
      (res.1, res.2.1, [])
  | none =>
    let sid := Manager.sessionId rnd
    let res := SessionInit pder sid now
    (res.1, res.2.1, [{ Name := manager.cookieName, Value := QueryEscape sid, Path := [47],
                        HttpOnly := true, Expires := none, MaxAge := manager.maxlifetime }])

/-- `Manager.SessionDestroy`: returns the provider state and the cookies handed to
`http.SetCookie`. -/
def Manager.SessionDestroy (manager : Manager) (pder : Provider K V) (r : Request) (now : Time) :
    Provider K V × List Cookie :=
  match r.Cookie manager.cookieName with
  | some value =>
    if value = [] then (pder, [])
    else
      ((memory.SessionDestroy pder value).1,
        [{ Name := manager.cookieName, Value := [], Path := [47], HttpOnly := true,
           Expires := some now, MaxAge := -1 }])
  | none => (pder, [])

end Ops

end session

/-! ## Example states -/

namespace session

open memory

/-- Manager of the example: cookie name `s`, lifetime 3600 seconds. -/
def exManager : Manager := { cookieName := [115], maxlifetime := 3600 }

/-- Thirty-two zero bytes delivered by the random source. -/
def exRandom : List Byte := List.replicate 32 0

/-- Request carrying the cookie that `SessionStart` issues for `exRandom`. -/
def exRequest : Request :=
  { cookies := [([115], QueryEscape (Manager.sessionId (some exRandom)))] }

/-- Provider after `SessionStart` on a request without cookie at time 0 and `Set(7, 9)`
on the returned session at time 5. -/
def exIssued : Provider Nat Nat :=
  (SessionStore.Set
    (Manager.SessionStart exManager pderInit { cookies := [] } (some exRandom) 0).1
    (Manager.SessionStart exManager (pderInit : Provider Nat Nat) { cookies := [] }
      (some exRandom) 0).2.1
    (Key.val 7) (some 9) 5).1

end session

namespace memory

/-- Sessions `A`, `B`, `C`, `D` created at second 700 and last accessed at seconds 800,
950, 990 and 1000: at second 1000 their ages are 200, 50, 10 and 0. -/
def exAges : Provider Nat Nat :=
  run pderInit
    [Op.init [65] 700000000000, Op.init [66] 700000000000, Op.init [67] 700000000000,
     Op.init [68] 700000000000, Op.update [65] 800000000000, Op.update [66] 950000000000,
     Op.update [67] 990000000000, Op.update [68] 1000000000000]

/-- Two sessions created at seconds 0 and 200, then a sweep with `maxlifetime` 100 at
second 200. -/
def exSweep : List (Op Nat Nat) :=
  [Op.init [65] 0, Op.init [66] 200000000000, Op.gc 100 200000000000]

/-- Two sessions created at seconds 0 and 10. -/
def exTwoInits : List (Op Nat Nat) :=
  [Op.init [65] 0, Op.init [66] 10000000000]

/-- `SessionInit` called twice on the token `A`. -/
def exDuplicate : List (Op Nat Nat) :=
  [Op.init [65] 0, Op.init [65] 1000000000]

/-- Accesses to `A`, `B` and `C`, in that order, at seconds 1100, 1200 and 1300. -/
def exAccesses : List (GoString × Access Nat Nat × Time) :=
  [([65], Access.get 1, 1100000000000), ([66], Access.set 1 (some 2), 1200000000000),
   ([67], Access.delete 1, 1300000000000)]

end memory

/-! ## Registry, sweep timer, runs of `SessionStart` and lock events -/

namespace session

open memory

/-- What a `panic` of `Register` reports. -/
inductive RegisterPanic where
  | provideIsNil
  | calledTwice (name : GoString)
deriving DecidableEq

/-- `Register` on the package variable `provides`. A `Provider` interface value is
`Option P`, `none` for nil. Returns the map afterwards and the panic, if there is one. -/
def Register {P : Type} (provides : List (GoString × Option P)) (name : GoString)
    (provide : Option P) : List (GoString × Option P) × Option RegisterPanic :=
  match provide with
  | none => (provides, some RegisterPanic.provideIsNil)
  | some p =>
    match mapGet provides name with
    | some _ => (provides, some (RegisterPanic.calledTwice name))
    | none => (mapSet provides name (some p), none)

/-- The struct `Manager` with its `provider` field, as `NewManager` fills it. -/
structure ManagerOf (P : Type) where
  provider : Option P
  cookieName : GoString
  maxlifetime : Int
deriving DecidableEq

/-- `NewManager` on the package variable `provides`. Returns the map afterwards, the
`*Manager` (`none` for nil) and the error; the text of the error is not modelled. -/
def NewManager {P : Type} (provides : List (GoString × Option P))
    (providerName cookieName : GoString) (maxlifetime : Int) :
    List (GoString × Option P) × Option (ManagerOf P) × error :=
  match mapGet provides providerName with
  | none => (provides, none, some [])
  | some provider =>
    (provides, some { provider := provider, cookieName := cookieName,
                      maxlifetime := maxlifetime }, none)

/-- Go standard library `time.Second`: the nanoseconds of one second, the unit of
`time.Duration`. -/
def Second : Int := 1000000000

section Timer
variable {K V : Type}

/-- `Manager.GC`: runs the sweep and returns the `time.Duration` handed to
`time.AfterFunc`, in nanoseconds. The conversion `time.Duration(manager.maxlifetime)`
from `int64` keeps the number. -/
def Manager.GC (manager : Manager) (pder : Provider K V) (now : Time) : Provider K V × Int :=
  (SessionGC pder manager.maxlifetime now, manager.maxlifetime)

/-- The request takes the branch of `SessionStart` that generates a token: no cookie
of the manager's name, or an empty one. -/
def Manager.creates (manager : Manager) (r : Request) : Bool :=
  match r.Cookie manager.cookieName with
  | some value => decide (value = [])
  | none => true

/-- A run of `SessionStart` calls, first to last; each call comes with its request,
what the random source delivers and the clock reading. -/
def Manager.starts (manager : Manager) (pder : Provider K V)
    (calls : List (Request × Option (List Byte) × Time)) : Provider K V :=
  calls.foldl (fun p c => (Manager.SessionStart manager p c.1 c.2.1 c.2.2).1) pder

/-- Every token that the run generates is not in the index when it is generated. -/
def Manager.freshStarts (manager : Manager) (pder : Provider K V) :
    List (Request × Option (List Byte) × Time) → Bool
  | [] => true
  | c :: calls =>
    (!Manager.creates manager c.1 || (mapGet pder.sessions (Manager.sessionId c.2.1)).isNone) &&
      Manager.freshStarts manager (Manager.SessionStart manager pder c.1 c.2.1 c.2.2).1 calls

/-- The tokens that the run generates, in order: one for every call that takes the
generating branch. -/
def Manager.generated (manager : Manager)
    (calls : List (Request × Option (List Byte) × Time)) : List GoString :=
  calls.filterMap (fun c =>
    if Manager.creates manager c.1 then some (Manager.sessionId c.2.1) else none)

end Timer

/-- Registry after `init()` of package `memory`: provider 0 under the name `m`. -/
def exProvides : List (GoString × Option Nat) := [([109], some 0)]

/-- Two `SessionStart` calls: one without cookie, one presenting the issued cookie. -/
def exCalls : List (Request × Option (List Byte) × Time) :=
  [({ cookies := [] }, some exRandom, 0), (exRequest, none, 5000000000)]

/-- A client first presents the cookie that `SessionStart` would issue for `exRandom`,
then a request without cookie arrives and the random source delivers `exRandom`. -/
def exForged : List (Request × Option (List Byte) × Time) :=
  [(exRequest, none, 0), ({ cookies := [] }, some exRandom, 5000000000)]

end session

namespace memory

/-- What an operation of the provider does with the mutex `lock`, the map `sessions`
(the index) and the list (the order), in program order. -/
inductive Event where
  | lock
  | unlock
  | readIndex
  | writeIndex
  | readOrder
  | writeOrder
deriving DecidableEq

/-- Whether every access to the index and to the order happens while the mutex is
held; `held` tells whether it is held at the start. -/
def lockDiscipline : Bool → List Event → Bool
  | _, [] => true
  | held, Event.lock :: es => !held && lockDiscipline true es
  | held, Event.unlock :: es => held && lockDiscipline false es
  | held, _ :: es => held && lockDiscipline held es

/-- The operation starts without the mutex and touches index and order only while
holding it. -/
def guarded (es : List Event) : Bool := lockDiscipline false es

section Events
variable {K V : Type}

/-- Events of `SessionInit`: `Lock`, `PushBack`, the map write, and the deferred
`Unlock` on return. -/
def SessionInit.events : List Event :=
  [Event.lock, Event.writeOrder, Event.writeIndex, Event.unlock]

/-- Events of `SessionRead`: the map lookup, then `SessionInit` on a miss. -/
def SessionRead.events (pder : Provider K V) (sid : GoString) : List Event :=
  Event.readIndex ::
    (match mapGet pder.sessions sid with
    | some _ => []
    | none => SessionInit.events)

/-- Events of `SessionDestroy`: the map lookup, then `delete` and `Remove` on a hit. -/
def SessionDestroy.events (pder : Provider K V) (sid : GoString) : List Event :=
  Event.readIndex ::
    (match mapGet pder.sessions sid with
    | some _ => [Event.writeIndex, Event.writeOrder]
    | none => [])

/-- Events of the loop of `SessionGC`: `Back()`, then `Remove` and `delete` while the
back element is expired. -/
def gcLoopEvents (maxlifetime : Int) (now : Time) : Nat → Provider K V → List Event
  | 0, _ => []
  | fuel + 1, pder =>
    Event.readOrder ::
      (match listBack pder.list with
      | none => []
      | some element =>
        match deref pder element with
        | none => []
        | some st =>
          if gcExpired st maxlifetime now then
            Event.writeOrder :: Event.writeIndex ::
              gcLoopEvents maxlifetime now fuel
                { pder with list := listRemove pder.list element,
                            sessions := mapDelete pder.sessions st.sid }
          else [])

/-- Events of `SessionGC`: `Lock`, the loop (one more `Back()` than removals), and the
deferred `Unlock`. -/
def SessionGC.events (pder : Provider K V) (maxlifetime : Int) (now : Time) : List Event :=
  Event.lock :: (gcLoopEvents maxlifetime now (pder.list.length + 1) pder ++ [Event.unlock])

/-- Events of `SessionUpdate`: `Lock`, the map lookup, `MoveToFront` on a hit, and the
deferred `Unlock`. -/
def SessionUpdate.events (pder : Provider K V) (sid : GoString) : List Event :=
  Event.lock :: Event.readIndex ::
    ((match mapGet pder.sessions sid with
      | some _ => [Event.writeOrder]
      | none => []) ++ [Event.unlock])

end Events

/-- One session `A` last accessed at second 1. -/
def exOverflow : Provider Nat Nat :=
  run pderInit [Op.init [65] 1000000000]

/-- Session `A` created at second 0 and destroyed: its store stays at address 0, its
token is no longer in the index. -/
def exGone : Provider Nat Nat :=
  run pderInit [Op.init [65] 0, Op.destroy [65]]

end memory

/-! ## Lemmas on maps, lists and the heap -/

namespace memory

section MapLemmas
variable {α β : Type} [DecidableEq α]

theorem mapGet_mapDelete (m : List (α × β)) (k k' : α) :
    mapGet (mapDelete m k) k' = if k = k' then none else mapGet m k' := by
  induction m with
  | nil => simp [mapDelete, mapGet]
  | cons p m ih =>
    obtain ⟨k₀, v⟩ := p
    by_cases h₀ : k₀ = k
    · subst h₀
      have hd : mapDelete ((k₀, v) :: m) k₀ = mapDelete m k₀ := by simp [mapDelete]
      rw [hd, ih, mapGet]
      by_cases h : k₀ = k' <;> simp [h]
    · have hd : mapDelete ((k₀, v) :: m) k = (k₀, v) :: mapDelete m k := by
        simp [mapDelete, h₀]
      rw [hd, mapGet, mapGet, ih]
      by_cases h : k = k'
      · subst h; simp [h₀]
      · simp [h]

theorem mapGet_mapDelete_self (m : List (α × β)) (k : α) : mapGet (mapDelete m k) k = none := by
  rw [mapGet_mapDelete, if_pos rfl]

theorem mapGet_mapDelete_ne (m : List (α × β)) {k k' : α} (h : k ≠ k') :
    mapGet (mapDelete m k) k' = mapGet m k' := by
  rw [mapGet_mapDelete, if_neg h]

theorem mapGet_mapSet_self (m : List (α × β)) (k : α) (v : β) :
    mapGet (mapSet m k v) k = some v := by
  simp [mapSet, mapGet]

theorem mapGet_mapSet_ne (m : List (α × β)) {k k' : α} (v : β) (h : k ≠ k') :
    mapGet (mapSet m k v) k' = mapGet m k' := by
  rw [mapSet, mapGet, if_neg h, mapGet_mapDelete_ne m h]

theorem mem_of_mapGet (m : List (α × β)) (k : α) (v : β) (h : mapGet m k = some v) :
    (k, v) ∈ m := by
  induction m with
  | nil => simp [mapGet] at h
  | cons p m ih =>
    obtain ⟨k₀, v₀⟩ := p
    by_cases h₀ : k₀ = k
    · subst h₀
      simp [mapGet] at h
      simp [h]
    · rw [mapGet, if_neg h₀] at h
      exact List.mem_cons_of_mem _ (ih h)

end MapLemmas

theorem listRemove_concat (l : List Nat) (e : Nat) (h : (l ++ [e]).Nodup) :
    listRemove (l ++ [e]) e = l := by
  have hne : ∀ a ∈ l, a ≠ e := by
    intro a ha hae
    subst hae
    exact (List.nodup_append.mp h).2.2 ha (by simp)
  simp only [listRemove, List.filter_append]
  rw [List.filter_eq_self.mpr (fun a ha => by simpa using hne a ha)]
  simp

theorem list_eq_concat_of_getLast? (l : List Nat) (e : Nat) (h : l.getLast? = some e) :
    l = l.dropLast ++ [e] := by
  have hne : l ≠ [] := by
    intro h0; simp [h0] at h
  have hcat := List.dropLast_append_getLast hne
  rw [List.getLast?_eq_getLast _ hne] at h
  simp only [Option.some.injEq] at h
  rw [h] at hcat
  exact hcat.symm

theorem wrapInt64_of_range (x : Int) (h1 : -9223372036854775808 ≤ x)
    (h2 : x < 9223372036854775808) : wrapInt64 x = x := by
  unfold wrapInt64
  omega

section HeapLemmas
variable {K V : Type}

theorem getElem?_setTimeAccessed (heap : List (SessionStore K V)) (e a : Nat) (now : Time) :
    (setTimeAccessed heap e now)[a]? =
      (heap[a]?).map (fun st => if a = e then { st with timeAccessed := now } else st) := by
  unfold setTimeAccessed
  cases he : heap[e]? with
  | none =>
    by_cases hae : a = e
    · subst hae; simp [he]
    · simp [hae]
  | some st =>
    by_cases hae : a = e
    · subst hae
      have hlt : a < heap.length := by
        by_contra hge
        simp [List.getElem?_eq_none_iff.mpr (Nat.le_of_not_lt hge)] at he
      simp [he, List.getElem?_set, hlt]
    · simp [List.getElem?_set, Ne.symm hae, hae]

theorem deref_SessionUpdate (pder : Provider K V) (sid : GoString) (now : Time) (a : Nat) :
    ∃ t, deref (SessionUpdate pder sid now).1 a =
      (deref pder a).map (fun st => { st with timeAccessed := t }) := by
  unfold SessionUpdate
  cases h : mapGet pder.sessions sid with
  | none =>
    cases hd : deref pder a with
    | none => exact ⟨0, by simp [hd]⟩
    | some st => exact ⟨st.timeAccessed, by simp [hd]⟩
  | some e =>
    simp only [deref, getElem?_setTimeAccessed]
    by_cases hae : a = e
    · exact ⟨now, by simp [hae]⟩
    · cases hd : pder.heap[a]? with
      | none => exact ⟨0, by simp [hd]⟩
      | some st => exact ⟨st.timeAccessed, by simp [hd, hae]⟩

/-- What `Get` returns: the state after `SessionUpdate` on the store's token, and the
entry of the store's value map, nil when there is none. -/
theorem Get_result [DecidableEq K] (pder : Provider K V) (st : Nat) (s : SessionStore K V)
    (key : Key K) (now : Time) (hs : deref pder st = some s) :
    (SessionStore.Get pder st key now).1 = (SessionUpdate pder s.sid now).1 ∧
    (SessionStore.Get pder st key now).2 =
      (match valueGet s.value key with
      | Outcome.returns (some v) => Outcome.returns v
      | Outcome.returns none => Outcome.returns none
      | Outcome.panics p => Outcome.panics p) := by
  obtain ⟨u, hu⟩ := deref_SessionUpdate pder s.sid now st
  rw [hs] at hu
  simp only [Option.map_some'] at hu
  simp only [SessionStore.Get, hs, hu]
  constructor <;> split <;> rfl

theorem sidOf_eq_some {heap : List (SessionStore K V)} {a : Nat} {sid : GoString}
    (h : sidOf heap a = some sid) : ∃ st, heap[a]? = some st ∧ st.sid = sid := by
  unfold sidOf at h
  cases hd : heap[a]? with
  | none => simp [hd] at h
  | some st => exact ⟨st, rfl, by simpa [hd] using h⟩

theorem Consistent.index {pder : Provider K V} (hc : Consistent pder) {sid : GoString} {a : Nat}
    (h : mapGet pder.sessions sid = some a) : a ∈ pder.list ∧ sidOf pder.heap a = some sid :=
  hc.2.1 (sid, a) (mem_of_mapGet _ _ _ h) a h

theorem Consistent.node {pder : Provider K V} (hc : Consistent pder) {a : Nat}
    (ha : a ∈ pder.list) :
    ∃ sid, sidOf pder.heap a = some sid ∧ mapGet pder.sessions sid = some a := by
  have h := hc.2.2 a ha
  cases hs : sidOf pder.heap a with
  | none => simp [hs] at h
  | some sid => exact ⟨sid, rfl, by simpa [hs] using h⟩

end HeapLemmas

end memory

/-! ## The sweep of `SessionGC` -/

namespace memory

section GCLemmas
variable {K V : Type}

/-- The loop of `SessionGC` with enough fuel removes a tail segment of the list whose
nodes all pass the expiry test, stops at an empty list or at a back node failing the
test, leaves the heap alone and deletes from the map the tokens of the removed nodes. -/
theorem gcLoop_spec (m : Int) (now : Time) :
    ∀ (fuel : Nat) (pder : Provider K V), pder.list.Nodup → pder.list.length ≤ fuel →
    ∃ removed : List Nat,
      pder.list = (gcLoop m now fuel pder).list ++ removed ∧
      (∀ a ∈ removed, expiredAt pder.heap m now a = true) ∧
      (∀ e, (gcLoop m now fuel pder).list.getLast? = some e → expiredAt pder.heap m now e = false) ∧
      (gcLoop m now fuel pder).heap = pder.heap ∧
      ∀ sid, mapGet (gcLoop m now fuel pder).sessions sid =
        if sid ∈ removed.filterMap (sidOf pder.heap) then none else mapGet pder.sessions sid := by
  intro fuel
  induction fuel with
  | zero =>
    intro pder _ hlen
    have hnil : pder.list = [] := List.length_eq_zero.mp (Nat.le_zero.mp hlen)
    refine ⟨[], ?_, ?_, ?_, rfl, ?_⟩
    · simp [gcLoop]
    · simp
    · simp [gcLoop, hnil]
    · simp [gcLoop]
  | succ fuel ih =>
    intro pder hnd hlen
    cases hb : pder.list.getLast? with
    | none =>
      refine ⟨[], ?_, ?_, ?_, ?_, ?_⟩ <;> simp [gcLoop, listBack, hb]
    | some e =>
      cases hd : pder.heap[e]? with
      | none =>
        refine ⟨[], ?_, ?_, ?_, ?_, ?_⟩ <;> simp [gcLoop, listBack, hb, deref, hd]
        simp [expiredAt, hd]
      | some st =>
        by_cases hx : gcExpired st m now = true
        · have hl := list_eq_concat_of_getLast? _ _ hb
          have hrem : listRemove pder.list e = pder.list.dropLast := by
            conv_lhs => rw [hl]
            exact listRemove_concat _ _ (hl ▸ hnd)
          have hstep : gcLoop m now (fuel + 1) pder =
              gcLoop m now fuel { pder with list := pder.list.dropLast,
                                            sessions := mapDelete pder.sessions st.sid } := by
            simp [gcLoop, listBack, hb, deref, hd, hx, hrem]
          have hnd' : pder.list.dropLast.Nodup := by
            rw [hl] at hnd
            exact (List.nodup_append.mp hnd).1
          have hlen' : pder.list.dropLast.length ≤ fuel := by
            simp only [List.length_dropLast]; omega
          obtain ⟨removed, h1, h2, h3, h4, h5⟩ :=
            ih { pder with list := pder.list.dropLast,
                           sessions := mapDelete pder.sessions st.sid } hnd' hlen'
          rw [hstep]
          refine ⟨removed ++ [e], ?_, ?_, h3, h4, ?_⟩
          · simp only at h1
            rw [← List.append_assoc, ← h1]; exact hl
          · intro a ha
            rcases List.mem_append.mp ha with ha | ha
            · exact h2 a ha
            · simp only [List.mem_singleton] at ha
              subst ha
              simp [expiredAt, hd, hx]
          · intro sid
            rw [h5 sid]
            simp only [mapGet_mapDelete, List.filterMap_append, List.mem_append]
            have hs : sidOf pder.heap e = some st.sid := by simp [sidOf, hd]
            by_cases hin : sid ∈ List.filterMap (sidOf pder.heap) removed
            · simp [hin]
            · by_cases hsid : st.sid = sid
              · simp [hin, hs, hsid]
              · have : sid ≠ st.sid := fun h => hsid h.symm
                simp [hin, hs, hsid, this]
        · refine ⟨[], ?_, ?_, ?_, ?_, ?_⟩ <;> simp [gcLoop, listBack, hb, deref, hd, hx]
          simp [expiredAt, hd, hx]

theorem expiredAt_eq_stale (pder : Provider K V) (m : Int) (now : Time) (ho : NoOverflow pder m)
    (a : Nat) (ha : a ∈ pder.list) : expiredAt pder.heap m now a = stale pder.heap m now a := by
  unfold expiredAt stale lastAccessed
  cases hd : pder.heap[a]? with
  | none => rfl
  | some st =>
    have h := ho a ha (Time.Unix st.timeAccessed) (by simp [lastAccessed, hd])
    simp only [Option.map_some', gcExpired]
    rw [wrapInt64_of_range _ h.1 h.2]

end GCLemmas

end memory

/-! ## Query escaping -/

namespace session

open memory

set_option maxRecDepth 100000 in
theorem escape_keeps (c : Byte) (h : shouldEscape c = false) : c.val ≠ 37 ∧ c.val ≠ 43 := by
  revert c; decide

set_option maxRecDepth 100000 in
theorem escape_hex (c : Byte) (h : shouldEscape c = true) :
    ishex (upperhex (c.val / 16)) = true ∧ ishex (upperhex (c.val % 16)) = true ∧
    (Fin.ofNat (unhex (upperhex (c.val / 16)) * 16 + unhex (upperhex (c.val % 16))) : Byte) = c := by
  revert c; decide

theorem unescape_plus (s : GoString) :
    unescape Pending.start (43 :: s) = (unescape Pending.start s).map (fun r => 32 :: r) := rfl

theorem unescape_percent (h l : Byte) (s : GoString) (hh : ishex h = true) (hl : ishex l = true) :
    unescape Pending.start (37 :: h :: l :: s) =
      (unescape Pending.start s).map (fun r => Fin.ofNat (unhex h * 16 + unhex l) :: r) := by
  have h1 : unescape Pending.start (37 :: h :: l :: s) = unescape Pending.percent (h :: l :: s) := rfl
  rw [h1, unescape, if_pos hh, unescape, if_pos hl]

theorem unescape_plain (c : Byte) (s : GoString) (h1 : c.val ≠ 37) (h2 : c.val ≠ 43) :
    unescape Pending.start (c :: s) = (unescape Pending.start s).map (fun r => c :: r) := by
  rw [unescape, if_neg h1, if_neg h2]

theorem unescape_QueryEscape (s : GoString) : unescape Pending.start (QueryEscape s) = some s := by
  induction s with
  | nil => rfl
  | cons c s ih =>
    unfold QueryEscape
    by_cases he : shouldEscape c = true
    · obtain ⟨h1, h2, h3⟩ := escape_hex c he
      by_cases hsp : c.val = 32
      · have hc : c = 32 := Fin.ext hsp
        rw [if_pos he, if_pos hsp, unescape_plus, ih, hc]
        rfl
      · rw [if_pos he, if_neg hsp, unescape_percent _ _ _ h1 h2, ih, h3]
        rfl
    · have he' : shouldEscape c = false := by simpa using he
      obtain ⟨h1, h2⟩ := escape_keeps c he'
      rw [if_neg he, unescape_plain c _ h1 h2, ih]
      rfl

theorem QueryUnescape_QueryEscape (s : GoString) : QueryUnescape (QueryEscape s) = (s, none) := by
  simp [QueryUnescape, unescape_QueryEscape]

theorem QueryEscape_eq_nil (s : GoString) (h : QueryEscape s = []) : s = [] := by
  cases s with
  | nil => rfl
  | cons c s =>
    unfold QueryEscape at h
    split at h
    · split at h <;> simp at h
    · simp at h

theorem EncodeToString_ne_nil (b : List Byte) (h : b ≠ []) : EncodeToString b ≠ [] := by
  match b, h with
  | [a], _ => simp [EncodeToString]
  | [a, b], _ => simp [EncodeToString]
  | a :: b :: c :: rest, _ => simp [EncodeToString]

theorem encodeURL_plain : ∀ n, n < 64 → shouldEscape (encodeURL n) = false := by decide

theorem encodeURL_decode : ∀ n, n < 64 →
    decodeURL (encodeURL n) = n ∧ (encodeURL n).val ≠ 61 := by decide

theorem QueryEscape_plain (s : GoString) (h : ∀ c ∈ s, shouldEscape c = false) :
    QueryEscape s = s := by
  induction s with
  | nil => rfl
  | cons c s ih =>
    have hc : shouldEscape c = false := h c (List.mem_cons_self _ _)
    rw [QueryEscape, hc, ih (fun d hd => h d (List.mem_cons_of_mem _ hd))]
    rfl

theorem QueryEscape_append (s t : GoString) :
    QueryEscape (s ++ t) = QueryEscape s ++ QueryEscape t := by
  induction s with
  | nil => rfl
  | cons c s ih =>
    have hcons : QueryEscape (c :: s ++ t) = QueryEscape (c :: (s ++ t)) := rfl
    rw [hcons, QueryEscape, QueryEscape, ih]
    by_cases he : shouldEscape c = true
    · by_cases hsp : c.val = 32
      · simp only [he, hsp, if_true, List.cons_append]
      · simp only [he, hsp, if_true, if_false, List.cons_append]
    · simp only [he, List.cons_append]
      rfl

theorem byte_ofNat_val (a : Byte) : (Fin.ofNat a.val : Byte) = a := by
  apply Fin.ext
  show a.val % 256 = a.val
  exact Nat.mod_eq_of_lt a.isLt

/-- Shape of a token made from `3 * n + 2` bytes: `4 * n + 4` characters, a body of
characters that `QueryEscape` keeps, and the padding `=` at the end. -/
theorem EncodeToString_shape : ∀ (n : Nat) (b : List Byte), b.length = 3 * n + 2 →
    (EncodeToString b).length = 4 * n + 4 ∧
    ∃ body, EncodeToString b = body ++ [61] ∧ ∀ c ∈ body, shouldEscape c = false := by
  intro n
  induction n with
  | zero =>
    intro b hb
    match b, hb with
    | [x, y], _ =>
      refine ⟨rfl, [encodeURL (x.val / 4), encodeURL (x.val % 4 * 16 + y.val / 16),
        encodeURL (y.val % 16 * 4)], rfl, ?_⟩
      have hx := x.isLt
      have hy := y.isLt
      intro c hc
      simp only [List.mem_cons, List.mem_singleton, List.not_mem_nil, or_false] at hc
      rcases hc with h | h | h <;> rw [h] <;> apply encodeURL_plain <;> omega
  | succ n ih =>
    intro b hb
    match b, hb with
    | x :: y :: z :: rest, hb =>
      have hrest : rest.length = 3 * n + 2 := by
        simp only [List.length_cons] at hb; omega
      obtain ⟨hlen, body, hbody, hplain⟩ := ih rest hrest
      have hx := x.isLt
      have hy := y.isLt
      have hz := z.isLt
      refine ⟨?_, encodeURL (x.val / 4) :: encodeURL (x.val % 4 * 16 + y.val / 16) ::
        encodeURL (y.val % 16 * 4 + z.val / 64) :: encodeURL (z.val % 64) :: body, ?_, ?_⟩
      · simp only [EncodeToString, List.length_cons, hlen]; omega
      · simp only [EncodeToString, hbody, List.cons_append]
      · intro c hc
        simp only [List.mem_cons] at hc
        rcases hc with h | h | h | h | h
        · rw [h]; apply encodeURL_plain; omega
        · rw [h]; apply encodeURL_plain; omega
        · rw [h]; apply encodeURL_plain; omega
        · rw [h]; apply encodeURL_plain; omega
        · exact hplain c h

/-- The bytes can be read back from the token. -/
theorem DecodeString_EncodeToString : ∀ (n : Nat) (b : List Byte), b.length = 3 * n + 2 →
    DecodeString (EncodeToString b) = b := by
  intro n
  induction n with
  | zero =>
    intro b hb
    match b, hb with
    | [x, y], _ =>
      have hx := x.isLt
      have hy := y.isLt
      have h1 := encodeURL_decode (x.val / 4) (by omega)
      have h2 := encodeURL_decode (x.val % 4 * 16 + y.val / 16) (by omega)
      have h3 := encodeURL_decode (y.val % 16 * 4) (by omega)
      have h61 : (61 : Byte).val = 61 := rfl
      simp only [EncodeToString, DecodeString, h1.1, h2.1, h3.1, if_neg h3.2, if_pos h61]
      have e1 : x.val / 4 * 4 + (x.val % 4 * 16 + y.val / 16) / 16 = x.val := by omega
      have e2 : (x.val % 4 * 16 + y.val / 16) % 16 * 16 + y.val % 16 * 4 / 4 = y.val := by omega
      rw [e1, e2, byte_ofNat_val, byte_ofNat_val]
  | succ n ih =>
    intro b hb
    match b, hb with
    | x :: y :: z :: rest, hb =>
      have hrest : rest.length = 3 * n + 2 := by
        simp only [List.length_cons] at hb; omega
      have hx := x.isLt
      have hy := y.isLt
      have hz := z.isLt
      have h1 := encodeURL_decode (x.val / 4) (by omega)
      have h2 := encodeURL_decode (x.val % 4 * 16 + y.val / 16) (by omega)
      have h3 := encodeURL_decode (y.val % 16 * 4 + z.val / 64) (by omega)
      have h4 := encodeURL_decode (z.val % 64) (by omega)
      simp only [EncodeToString, DecodeString, h1.1, h2.1, h3.1, h4.1, if_neg h3.2, if_neg h4.2,
        ih rest hrest]
      have e1 : x.val / 4 * 4 + (x.val % 4 * 16 + y.val / 16) / 16 = x.val := by omega
      have e2 : (x.val % 4 * 16 + y.val / 16) % 16 * 16 + (y.val % 16 * 4 + z.val / 64) / 4 =
          y.val := by omega
      have e3 : (y.val % 16 * 4 + z.val / 64) % 4 * 64 + z.val % 64 = z.val := by omega
      rw [e1, e2, e3, byte_ofNat_val, byte_ofNat_val, byte_ofNat_val]

/-- A token made from 32 bytes has 44 characters and ends in `=`, its query-escaped
form replaces that `=` by `%3D`, and the token determines the 32 bytes. -/
theorem token_facts (b : List Byte) (hb : b.length = 32) :
    (EncodeToString b).length = 44 ∧
    (EncodeToString b).getLast? = some 61 ∧
    QueryEscape (EncodeToString b) = (EncodeToString b).dropLast ++ [37, 51, 68] ∧
    (∀ b2 : List Byte, b2.length = 32 → EncodeToString b2 = EncodeToString b → b2 = b) := by
  obtain ⟨hlen, body, hbody, hplain⟩ := EncodeToString_shape 10 b (by omega)
  refine ⟨by omega, ?_, ?_, ?_⟩
  · rw [hbody]; simp
  · rw [hbody, QueryEscape_append, QueryEscape_plain body hplain, List.dropLast_concat]
    rfl
  · intro b2 hb2 he
    rw [← DecodeString_EncodeToString 10 b2 (by omega), he,
      DecodeString_EncodeToString 10 b (by omega)]

end session

/-! ## Claims -/

namespace memory

/-- Claim C1: when token `t` is not in the index, `SessionRead(t)` returns a nil error and
a session whose `SessionID()` is `t`, whose value map is empty, and which the index
records for `t`; a second `SessionRead(t)` on the resulting state returns the same
stored object and leaves the state as it is. -/
theorem SessionRead_creates_on_miss {K V : Type} (pder : Provider K V) (t : GoString) (now now' : Time)
    (hmiss : mapGet pder.sessions t = none) :
    (SessionRead pder t now).2.2 = none ∧
    SessionStore.SessionID (SessionRead pder t now).1 (SessionRead pder t now).2.1 = t ∧
    deref (SessionRead pder t now).1 (SessionRead pder t now).2.1 =
      some { sid := t, timeAccessed := now, value := [] } ∧
    mapGet (SessionRead pder t now).1.sessions t = some (SessionRead pder t now).2.1 ∧
    SessionRead (SessionRead pder t now).1 t now' =
      ((SessionRead pder t now).1, (SessionRead pder t now).2.1, none) := by
  have hr : SessionRead pder t now = SessionInit pder t now := by
    simp [SessionRead, hmiss]
  have hd : deref (SessionInit pder t now).1 (SessionInit pder t now).2.1 =
      some { sid := t, timeAccessed := now, value := [] } := by
    simp [SessionInit, deref]
  rw [hr]
  refine ⟨rfl, ?_, hd, ?_, ?_⟩
  · simp only [SessionStore.SessionID, hd]
  · simp [SessionInit, mapGet_mapSet_self]
  · have : mapGet (SessionInit pder t now).1.sessions t = some (SessionInit pder t now).2.1 := by
      simp [SessionInit, mapGet_mapSet_self]
    simp only [SessionRead, this]

/-- Witness for C1: the empty provider and the token `A`. -/
theorem SessionRead_creates_on_miss_witness :
    mapGet (pderInit : Provider Nat Nat).sessions [65] = none ∧
    SessionRead (SessionRead (pderInit : Provider Nat Nat) [65] 0).1 [65] 1 =
      ((SessionRead (pderInit : Provider Nat Nat) [65] 0).1,
       (SessionRead (pderInit : Provider Nat Nat) [65] 0).2.1, none) :=
  ⟨rfl, (SessionRead_creates_on_miss pderInit [65] 0 1 rfl).2.2.2.2⟩

/-- Counterexample for C2: on the session of `exIssued`, `Set(NaN, 1)` followed by
`Get(NaN)` returns nil, not 1, because a NaN key is never found again; `Set` and
`Delete` with a key of unhashable dynamic type panic instead of returning a nil error. -/
theorem SessionStore_round_trip_fails :
    (SessionStore.Get (SessionStore.Set session.exIssued 0 Key.nan (some 1) 6).1 0 Key.nan 8).2 =
      Outcome.returns none ∧
    (SessionStore.Get (SessionStore.Set session.exIssued 0 Key.nan (some 1) 6).1 0 Key.nan 8).2 ≠
      Outcome.returns (some 1) ∧
    (SessionStore.Set session.exIssued 0 Key.unhashable (some 1) 6).2 ≠ Outcome.returns none ∧
    (SessionStore.Set session.exIssued 0 Key.unhashable (some 1) 6).2 =
      Outcome.panics RuntimePanic.unhashableKey ∧
    (SessionStore.Delete session.exIssued 0 Key.unhashable 6).2 =
      Outcome.panics RuntimePanic.unhashableKey ∧
    (SessionStore.Get session.exIssued 0 Key.unhashable 6).2 =
      Outcome.panics RuntimePanic.unhashableKey := by
  decide

/-- Claim C2, amended: on every allocated store and for every key whose dynamic type can
be hashed, `Delete(k)` followed by `Get(k)` returns nil and `Set` and `Delete` return a
nil error; if the key is moreover equal to itself (not NaN), `Set(k, v)` followed by
`Get(k)` returns `v`. -/
theorem SessionStore_round_trip {K V : Type} [DecidableEq K] (pder : Provider K V) (st : Nat)
    (key : Key K) (v : Option V) (t1 t2 : Time) (h : st < pder.heap.length)
    (hk : key ≠ Key.unhashable) :
    (∀ k, key = Key.val k →
      (SessionStore.Get (SessionStore.Set pder st key v t1).1 st key t2).2 = Outcome.returns v) ∧
    (SessionStore.Get (SessionStore.Delete pder st key t1).1 st key t2).2 =
      Outcome.returns none ∧
    (SessionStore.Set pder st key v t1).2 = Outcome.returns none ∧
    (SessionStore.Delete pder st key t1).2 = Outcome.returns none := by
  have hd : deref pder st = some (pder.heap[st]) := by simp [deref, h]
  have hwritten : ∀ (m : List (Key K × Option V)),
      ∃ u, deref (SessionUpdate
          { pder with heap := pder.heap.set st { pder.heap[st] with value := m } }
          (pder.heap[st]).sid t1).1 st =
        some { sid := (pder.heap[st]).sid, timeAccessed := u, value := m } := by
    intro m
    obtain ⟨u, hu⟩ := deref_SessionUpdate
      { pder with heap := pder.heap.set st { pder.heap[st] with value := m } }
      (pder.heap[st]).sid t1 st
    exact ⟨u, by rw [hu]; simp [deref, h]⟩
  cases key with
  | unhashable => exact absurd rfl hk
  | nan =>
    refine ⟨fun k hkv => absurd hkv (by simp), ?_, ?_, ?_⟩
    · obtain ⟨u, hu⟩ := hwritten (pder.heap[st]).value
      simp only [SessionStore.Delete, hd, valueDelete]
      rw [(Get_result _ st _ Key.nan t2 hu).2]
      rfl
    · simp only [SessionStore.Set, hd, valueSet]
    · simp only [SessionStore.Delete, hd, valueDelete]
  | val k =>
    refine ⟨fun _ _ => ?_, ?_, ?_, ?_⟩
    · obtain ⟨u, hu⟩ := hwritten (mapSet (pder.heap[st]).value (Key.val k) v)
      simp only [SessionStore.Set, hd, valueSet]
      rw [(Get_result _ st _ (Key.val k) t2 hu).2]
      simp only [valueGet, mapGet_mapSet_self]
    · obtain ⟨u, hu⟩ := hwritten (mapDelete (pder.heap[st]).value (Key.val k))
      simp only [SessionStore.Delete, hd, valueDelete]
      rw [(Get_result _ st _ (Key.val k) t2 hu).2]
      simp only [valueGet, mapGet_mapDelete_self]
    · simp only [SessionStore.Set, hd, valueSet]
    · simp only [SessionStore.Delete, hd, valueDelete]

/-- Witness for C2: the session of `exIssued`, which already holds key 7. -/
theorem SessionStore_round_trip_witness :
    0 < (session.exIssued).heap.length ∧ (Key.val 7 : Key Nat) ≠ Key.unhashable ∧
    (SessionStore.Get (SessionStore.Set session.exIssued 0 (Key.val 7) (some 4) 6).1 0
      (Key.val 7) 8).2 = Outcome.returns (some 4) ∧
    (SessionStore.Get (SessionStore.Delete session.exIssued 0 (Key.val 7) 6).1 0
      (Key.val 7) 8).2 = Outcome.returns none :=
  ⟨by decide, by decide,
    (SessionStore_round_trip session.exIssued 0 (Key.val 7) (some 4) 6 8 (by decide)
      (by decide)).1 7 rfl,
    (SessionStore_round_trip session.exIssued 0 (Key.val 7) (some 4) 6 8 (by decide)
      (by decide)).2.1⟩

end memory

namespace session

open memory

/-- Claim C3: when the random source delivers its 32 bytes, the generated token is their
URL-safe base64 encoding: 44 characters ending in `=`, different for different bytes.
`SessionStart` on a request without the session cookie (or with an empty one) creates
an empty session for that token and hands `http.SetCookie` one cookie whose value is
the query-escaped token, that is the token with its final `=` written `%3D`. On every
state whose index holds the token, and so on the state just reached, `SessionStart` on
a request presenting that cookie value returns the indexed session, leaves the provider
state as it is and sets no cookie. -/
theorem SessionStart_round_trip {K V : Type} (manager : Manager) (pder : Provider K V)
    (r r' : Request) (b : List Byte) (now : Time)
    (hr : r.Cookie manager.cookieName = none ∨ r.Cookie manager.cookieName = some [])
    (hb : b.length = 32)
    (hr' : r'.Cookie manager.cookieName = some ((EncodeToString b).dropLast ++ [37, 51, 68])) :
    Manager.sessionId (some b) = EncodeToString b ∧
    (EncodeToString b).length = 44 ∧
    (EncodeToString b).getLast? = some 61 ∧
    (∀ b2 : List Byte, b2.length = 32 → EncodeToString b2 = EncodeToString b → b2 = b) ∧
    QueryEscape (EncodeToString b) = (EncodeToString b).dropLast ++ [37, 51, 68] ∧
    QueryUnescape ((EncodeToString b).dropLast ++ [37, 51, 68]) = (EncodeToString b, none) ∧
    deref (Manager.SessionStart manager pder r (some b) now).1
        (Manager.SessionStart manager pder r (some b) now).2.1 =
      some { sid := EncodeToString b, timeAccessed := now, value := [] } ∧
    mapGet (Manager.SessionStart manager pder r (some b) now).1.sessions (EncodeToString b) =
      some (Manager.SessionStart manager pder r (some b) now).2.1 ∧
    (Manager.SessionStart manager pder r (some b) now).2.2 =
      [{ Name := manager.cookieName, Value := (EncodeToString b).dropLast ++ [37, 51, 68],
         Path := [47], HttpOnly := true, Expires := none, MaxAge := manager.maxlifetime }] ∧
    (∀ (pder2 : Provider K V) (a : Nat) (rnd2 : Option (List Byte)) (now2 : Time),
      mapGet pder2.sessions (EncodeToString b) = some a →
      Manager.SessionStart manager pder2 r' rnd2 now2 = (pder2, a, [])) ∧
    (∀ (rnd2 : Option (List Byte)) (now2 : Time),
      Manager.SessionStart manager (Manager.SessionStart manager pder r (some b) now).1 r'
          rnd2 now2 =
        ((Manager.SessionStart manager pder r (some b) now).1,
         (Manager.SessionStart manager pder r (some b) now).2.1, [])) := by
  obtain ⟨hlen, hlast, hesc, hinj⟩ := token_facts b hb
  have hs : Manager.SessionStart manager pder r (some b) now =
      ((SessionInit pder (EncodeToString b) now).1,
       (SessionInit pder (EncodeToString b) now).2.1,
       [{ Name := manager.cookieName, Value := (EncodeToString b).dropLast ++ [37, 51, 68],
          Path := [47], HttpOnly := true, Expires := none, MaxAge := manager.maxlifetime }]) := by
    rw [← hesc]
    rcases hr with h | h <;> simp [Manager.SessionStart, Manager.sessionId, h]
  have hne : (EncodeToString b).dropLast ++ [37, 51, 68] ≠ [] := by simp
  have hun : QueryUnescape ((EncodeToString b).dropLast ++ [37, 51, 68]) =
      (EncodeToString b, none) := by
    rw [← hesc]; exact QueryUnescape_QueryEscape _
  have hget : mapGet (SessionInit pder (EncodeToString b) now).1.sessions (EncodeToString b) =
      some (SessionInit pder (EncodeToString b) now).2.1 := by
    simp [SessionInit, mapGet_mapSet_self]
  have hlater : ∀ (pder2 : Provider K V) (a : Nat) (rnd2 : Option (List Byte)) (now2 : Time),
      mapGet pder2.sessions (EncodeToString b) = some a →
      Manager.SessionStart manager pder2 r' rnd2 now2 = (pder2, a, []) := by
    intro pder2 a rnd2 now2 ha
    simp only [Manager.SessionStart, hr', if_neg hne, hun, SessionRead, ha]
  rw [hs]
  refine ⟨rfl, hlen, hlast, hinj, hesc, hun, ?_, hget, rfl, hlater, ?_⟩
  · simp [SessionInit, deref]
  · intro rnd2 now2
    exact hlater _ _ rnd2 now2 hget

/-- Witness for C3: the example manager on the empty provider; the token of 32 zero
bytes is 43 times `A` and `=`, the cookie carries 43 times `A` and `%3D`. The manager
with the empty cookie name is covered as well. -/
theorem SessionStart_round_trip_witness :
    (({ cookies := [] } : Request).Cookie exManager.cookieName = none ∨
      ({ cookies := [] } : Request).Cookie exManager.cookieName = some []) ∧
    exRandom.length = 32 ∧
    exRequest.Cookie exManager.cookieName =
      some ((EncodeToString exRandom).dropLast ++ [37, 51, 68]) ∧
    Manager.sessionId (some exRandom) = List.replicate 43 65 ++ [61] ∧
    (Manager.SessionStart exManager (pderInit : Provider Nat Nat) { cookies := [] }
        (some exRandom) 0).2.2 =
      [{ Name := [115], Value := List.replicate 43 65 ++ [37, 51, 68], Path := [47],
         HttpOnly := true, Expires := none, MaxAge := 3600 }] ∧
    Manager.SessionStart exManager
        (Manager.SessionStart exManager (pderInit : Provider Nat Nat) { cookies := [] }
          (some exRandom) 0).1 exRequest none 9 =
      ((Manager.SessionStart exManager (pderInit : Provider Nat Nat) { cookies := [] }
          (some exRandom) 0).1,
       (Manager.SessionStart exManager (pderInit : Provider Nat Nat) { cookies := [] }
          (some exRandom) 0).2.1, []) ∧
    ({ cookies := [([], List.replicate 43 65 ++ [37, 51, 68])] } : Request).Cookie [] =
      some ((EncodeToString exRandom).dropLast ++ [37, 51, 68]) ∧
    Manager.SessionStart { cookieName := [], maxlifetime := 60 }
        (Manager.SessionStart { cookieName := [], maxlifetime := 60 }
          (pderInit : Provider Nat Nat) { cookies := [] } (some exRandom) 0).1
        { cookies := [([], List.replicate 43 65 ++ [37, 51, 68])] } none 9 =
      ((Manager.SessionStart { cookieName := [], maxlifetime := 60 }
          (pderInit : Provider Nat Nat) { cookies := [] } (some exRandom) 0).1,
       (Manager.SessionStart { cookieName := [], maxlifetime := 60 }
          (pderInit : Provider Nat Nat) { cookies := [] } (some exRandom) 0).2.1, []) :=
  ⟨Or.inl rfl, rfl, by decide, by decide, by decide,
    (SessionStart_round_trip exManager pderInit { cookies := [] } exRequest exRandom 0
      (Or.inl rfl) rfl (by decide)).2.2.2.2.2.2.2.2.2.2 none 9,
    by decide,
    (SessionStart_round_trip { cookieName := [], maxlifetime := 60 } pderInit { cookies := [] }
      { cookies := [([], List.replicate 43 65 ++ [37, 51, 68])] } exRandom 0
      (Or.inl rfl) rfl (by decide)).2.2.2.2.2.2.2.2.2.2 none 9⟩

/-- Claim C4, evaluated: the token generated from `exRandom` ends in `=`, so the cookie
value `exRequest` carries differs from the token. `Manager.SessionDestroy` passes the
cookie value to the provider as it is: the provider state stays `exIssued`, the cookie
is expired all the same, and the next `SessionStart` with that cookie returns the old
session 0, where `Get(7)` still yields 9. -/
theorem SessionDestroy_escaped_cookie_keeps_session :
    (Manager.SessionStart exManager (pderInit : Provider Nat Nat) { cookies := [] }
        (some exRandom) 0).2.2.map (fun c => c.Value) = exRequest.cookies.map (fun c => c.2) ∧
    (Manager.SessionDestroy exManager exIssued exRequest 10).1 = exIssued ∧
    (Manager.SessionDestroy exManager exIssued exRequest 10).2 =
      [{ Name := [115], Value := [], Path := [47], HttpOnly := true, Expires := some 10,
         MaxAge := -1 }] ∧
    (Manager.SessionStart exManager (Manager.SessionDestroy exManager exIssued exRequest 10).1
        exRequest none 20).2.1 = 0 ∧
    (SessionStore.Get
      (Manager.SessionStart exManager (Manager.SessionDestroy exManager exIssued exRequest 10).1
        exRequest none 20).1 0 (Key.val 7) 30).2 = Outcome.returns (some 9) := by
  decide

end session

namespace memory

/-- Claim C5: in a consistent state whose list is sorted head to tail by non-increasing
last access (Unix seconds), and with `lastAccessed + maxlifetime` inside `int64`,
`SessionGC` keeps in the list exactly the sessions that are not stale, in their previous
order, drops from the index exactly the entries of the stale ones, and leaves the
stores alone. -/
theorem SessionGC_removes_exactly_stale {K V : Type} (pder : Provider K V) (m : Int) (now : Time)
    (hc : Consistent pder) (hs : SortedByRecency pder) (ho : NoOverflow pder m) :
    (SessionGC pder m now).list = pder.list.filter (fun a => !stale pder.heap m now a) ∧
    (∀ sid, mapGet (SessionGC pder m now).sessions sid =
      (mapGet pder.sessions sid).filter (fun a => !stale pder.heap m now a)) ∧
    (SessionGC pder m now).heap = pder.heap := by
  obtain ⟨removed, h1, h2, h3, h4, h5⟩ := gcLoop_spec m now pder.list.length pder hc.1 (Nat.le_refl _)
  unfold SessionGC
  set res := gcLoop m now pder.list.length pder with hres
  have hremoved : ∀ a ∈ removed, stale pder.heap m now a = true := by
    intro a ha
    rw [← expiredAt_eq_stale pder m now ho a (by rw [h1]; simp [ha])]
    exact h2 a ha
  have hkept : ∀ a ∈ res.list, stale pder.heap m now a = false := by
    intro a ha
    have hne : res.list ≠ [] := List.ne_nil_of_mem ha
    have hlast := List.dropLast_append_getLast hne
    have he : expiredAt pder.heap m now (res.list.getLast hne) = false :=
      h3 _ (List.getLast?_eq_getLast _ hne)
    have hemem : res.list.getLast hne ∈ pder.list := by
      rw [h1]; exact List.mem_append_left _ (List.getLast_mem hne)
    rw [expiredAt_eq_stale pder m now ho _ hemem] at he
    rw [← hlast] at ha
    rcases List.mem_append.mp ha with ha' | ha'
    · have hp : (res.list.dropLast ++ [res.list.getLast hne] ++ removed).Pairwise (fun a b =>
          ∀ ta ∈ lastAccessed pder.heap a, ∀ tb ∈ lastAccessed pder.heap b, tb ≤ ta) := by
        rw [hlast, ← h1]; exact hs
      have hrel := (List.pairwise_append.mp (List.pairwise_append.mp hp).1).2.2 a ha'
        (res.list.getLast hne) (by simp)
      unfold stale at he ⊢
      cases hta : lastAccessed pder.heap a with
      | none => rfl
      | some ta =>
        cases hte : lastAccessed pder.heap (res.list.getLast hne) with
        | none =>
          obtain ⟨sid, hsid, _⟩ := hc.node hemem
          obtain ⟨st, hst, _⟩ := sidOf_eq_some hsid
          simp [lastAccessed, hst] at hte
        | some te =>
          have hle := hrel ta hta te hte
          simp only [hte, decide_eq_false_iff_not, not_lt] at he
          simp only [decide_eq_false_iff_not, not_lt]
          omega
    · simp only [List.mem_singleton] at ha'
      rw [ha']; exact he
  refine ⟨?_, ?_, h4⟩
  · conv_rhs => rw [h1]
    rw [List.filter_append, List.filter_eq_self.mpr (fun a ha => by simp [hkept a ha]),
      List.filter_eq_nil_iff.mpr (fun a ha => by simp [hremoved a ha]), List.append_nil]
  · intro sid
    rw [h5 sid]
    cases hg : mapGet pder.sessions sid with
    | none => simp
    | some a =>
      obtain ⟨hal, hasid⟩ := hc.index hg
      by_cases hst : stale pder.heap m now a = true
      · have har : a ∈ removed := by
          rw [h1] at hal
          rcases List.mem_append.mp hal with h | h
          · rw [hkept a h] at hst; exact absurd hst (by simp)
          · exact h
        have : sid ∈ List.filterMap (sidOf pder.heap) removed :=
          List.mem_filterMap.mpr ⟨a, har, hasid⟩
        simp [this, Option.filter, hst]
      · have hnot : sid ∉ List.filterMap (sidOf pder.heap) removed := by
          intro hin
          obtain ⟨a', ha', hs'⟩ := List.mem_filterMap.mp hin
          have ha'l : a' ∈ pder.list := by rw [h1]; exact List.mem_append_right _ ha'
          obtain ⟨sid', hsid', hget'⟩ := hc.node ha'l
          rw [hs'] at hsid'
          cases hsid'
          rw [hg] at hget'
          cases hget'
          exact hst (hremoved a ha')
        simp [hnot, Option.filter, hst]

/-- Witness for C5: ages 200, 50, 10 and 0 with `maxlifetime` 100; only the session of
age 200 (address 0) is removed. -/
theorem SessionGC_removes_exactly_stale_witness :
    Consistent exAges ∧ SortedByRecency exAges ∧ NoOverflow exAges 100 ∧
    (SessionGC exAges 100 1000000000000).list = [3, 2, 1] ∧
    (SessionGC exAges 100 1000000000000).list =
      exAges.list.filter (fun a => !stale exAges.heap 100 1000000000000 a) :=
  ⟨by decide, by decide, by decide, by decide,
    (SessionGC_removes_exactly_stale exAges 100 1000000000000
      (by decide) (by decide) (by decide)).1⟩

end memory

/-! ## Store accesses and recency -/

namespace memory

section AccessLemmas
variable {K V : Type}

theorem stamp_set_value (heap : List (SessionStore K V)) (st : Nat) (s : SessionStore K V)
    (val : List (Key K × Option V)) (hs : heap[st]? = some s) (a : Nat) :
    stamp (heap.set st { s with value := val }) a = stamp heap a := by
  unfold stamp
  by_cases hae : st = a
  · subst hae
    have hlt : st < heap.length := by
      by_contra hge
      simp [List.getElem?_eq_none_iff.mpr (Nat.le_of_not_lt hge)] at hs
    simp [List.getElem?_set, hlt, hs]
  · simp [List.getElem?_set, hae]

theorem sidOf_eq_stamp (heap : List (SessionStore K V)) (a : Nat) :
    sidOf heap a = (stamp heap a).map Prod.fst := by
  unfold sidOf stamp
  cases heap[a]? <;> rfl

theorem stamp_setTimeAccessed (heap : List (SessionStore K V)) (e a : Nat) (now : Time) :
    stamp (setTimeAccessed heap e now) a =
      (stamp heap a).map (fun p => if a = e then (p.1, now) else p) := by
  unfold stamp
  rw [getElem?_setTimeAccessed]
  cases heap[a]? with
  | none => rfl
  | some st => by_cases h : a = e <;> simp [h]

variable [DecidableEq K]

/-- Every access is a write to the value map of the store followed by `SessionUpdate` on the store's token. -/
theorem access_eq (pder : Provider K V) (st : Nat) (op : Access K V) (now : Time)
    (s : SessionStore K V) (hs : deref pder st = some s) :
    ∃ heap' : List (SessionStore K V),
      (∀ a, stamp heap' a = stamp pder.heap a) ∧
      access pder st op now = (SessionUpdate { pder with heap := heap' } s.sid now).1 := by
  cases op with
  | get key =>
    refine ⟨pder.heap, fun _ => rfl, ?_⟩
    simp only [access, SessionStore.Get, hs]
    repeat' split
    all_goals rfl
  | set key value =>
    exact ⟨pder.heap.set st { s with value := mapSet s.value (Key.val key) value },
      stamp_set_value pder.heap st s _ hs,
      by simp only [access, SessionStore.Set, hs, valueSet]⟩
  | delete key =>
    exact ⟨pder.heap.set st { s with value := mapDelete s.value (Key.val key) },
      stamp_set_value pder.heap st s _ hs,
      by simp only [access, SessionStore.Delete, hs, valueDelete]⟩

/-- Effect of an access through the handle the index records for token `sid`. -/
theorem access_indexed (pder : Provider K V) (st : Nat) (op : Access K V) (now : Time)
    (sid : GoString) (hsid : sidOf pder.heap st = some sid)
    (hget : mapGet pder.sessions sid = some st) :
    (access pder st op now).sessions = pder.sessions ∧
    (access pder st op now).list = listMoveToFront pder.list st ∧
    ∀ a, stamp (access pder st op now).heap a =
      (stamp pder.heap a).map (fun p => if a = st then (p.1, now) else p) := by
  obtain ⟨s, hs, hss⟩ := sidOf_eq_some hsid
  obtain ⟨heap', hst, hacc⟩ := access_eq pder st op now s hs
  rw [hacc, hss]
  simp only [SessionUpdate, hget]
  refine ⟨trivial, trivial, ?_⟩
  intro a
  rw [stamp_setTimeAccessed, hst]

theorem touchAll_spec (pder : Provider K V) (hc : Consistent pder) :
    ∀ xs : List (GoString × Access K V × Time),
      (xs.map (fun x => x.1)).Nodup → (∀ x ∈ xs, (mapGet pder.sessions x.1).isSome = true) →
      (touchAll pder xs).sessions = pder.sessions ∧
      (∀ a, sidOf (touchAll pder xs).heap a = sidOf pder.heap a) ∧
      (touchAll pder xs).list =
        (handles pder xs).reverse ++ pder.list.filter (fun a => decide (a ∉ handles pder xs)) ∧
      (∀ x ∈ xs, ∀ a ∈ mapGet pder.sessions x.1,
        (stamp (touchAll pder xs).heap a).map Prod.snd = some x.2.2) := by
  intro xs
  induction xs using List.reverseRecOn with
  | nil =>
    intro _ _
    refine ⟨rfl, fun _ => rfl, ?_, ?_⟩
    · simp [touchAll, handles]
    · simp
  | append_singleton xs x ih =>
    intro hnd hin
    have hnd' : (xs.map (fun x => x.1)).Nodup := by
      rw [List.map_append] at hnd
      exact (List.nodup_append.mp hnd).1
    have hfresh : x.1 ∉ xs.map (fun x => x.1) := by
      rw [List.map_append] at hnd
      intro hmem
      exact (List.nodup_append.mp hnd).2.2 hmem (by simp)
    obtain ⟨h1, h2, h3, h4⟩ := ih hnd' (fun y hy => hin y (List.mem_append_left _ hy))
    obtain ⟨st, hst⟩ := Option.isSome_iff_exists.mp (hin x (by simp))
    obtain ⟨hstl, hstsid⟩ := hc.index hst
    have hrun : touchAll pder (xs ++ [x]) = access (touchAll pder xs) st x.2.1 x.2.2 := by
      simp only [touchAll, List.foldl_append, List.foldl_cons, List.foldl_nil]
      simp only [touch, SessionRead]
      rw [show (List.foldl touch pder xs).sessions = pder.sessions from h1, hst]
    have hnot : st ∉ handles pder xs := by
      intro hmem
      obtain ⟨y, hy, hyst⟩ := List.mem_filterMap.mp hmem
      have hy1 := (hc.index hyst).2
      rw [hstsid] at hy1
      exact hfresh (List.mem_map.mpr ⟨y, hy, (Option.some.inj hy1).symm⟩)
    obtain ⟨a1, a2, a3⟩ := access_indexed (touchAll pder xs) st x.2.1 x.2.2 x.1
      (by rw [h2]; exact hstsid) (by rw [h1]; exact hst)
    have hhandles : handles pder (xs ++ [x]) = handles pder xs ++ [st] := by
      simp [handles, List.filterMap_append, hst]
    rw [hrun]
    refine ⟨a1.trans h1, ?_, ?_, ?_⟩
    · intro a
      rw [sidOf_eq_stamp, a3, ← h2 a, sidOf_eq_stamp]
      cases stamp (touchAll pder xs).heap a with
      | none => rfl
      | some p => by_cases h : a = st <;> simp [h]
    · rw [a2, h3, hhandles]
      have hmem : st ∈ (handles pder xs).reverse ++
          pder.list.filter (fun a => decide (a ∉ handles pder xs)) := by
        apply List.mem_append_right
        simp [List.mem_filter, hstl, hnot]
      rw [listMoveToFront, if_pos hmem, listRemove, List.filter_append, List.reverse_append]
      have hkeep : (handles pder xs).reverse.filter (fun a => decide (a ≠ st)) =
          (handles pder xs).reverse := by
        apply List.filter_eq_self.mpr
        intro a ha
        have : a ≠ st := fun h => hnot (h ▸ List.mem_reverse.mp ha)
        simpa using this
      rw [hkeep, List.filter_filter]
      simp only [List.reverse_cons, List.reverse_nil, List.nil_append, List.singleton_append,
        List.cons_append]
      congr 2
      apply List.filter_congr
      intro a _
      simp [List.mem_append, not_or, and_comm]
    · intro y hy a ha
      rw [a3]
      rcases List.mem_append.mp hy with hy | hy
      · have hne : a ≠ st := by
          intro hast
          subst hast
          exact hnot (List.mem_filterMap.mpr ⟨y, hy, ha⟩)
        have := h4 y hy a ha
        cases hs : stamp (touchAll pder xs).heap a with
        | none => simp [hs] at this
        | some p => simpa [hs, hne] using this
      · simp only [List.mem_singleton] at hy
        subst hy
        have hast : a = st := by
          have := ha
          simp only [Option.mem_def] at this
          rw [hst] at this
          exact (Option.some.inj this).symm
        subst hast
        obtain ⟨s, hs, _⟩ := sidOf_eq_some (by rw [h2]; exact hstsid :
          sidOf (touchAll pder xs).heap a = some y.1)
        simp [stamp, hs]

end AccessLemmas

theorem filterMap_filter_comm {α β : Type} (f : α → Option β) (p : α → Bool) (q : β → Bool) :
    ∀ l : List α, (∀ a ∈ l, ∀ t, f a = some t → p a = q t) →
      (l.filter p).filterMap f = (l.filterMap f).filter q := by
  intro l
  induction l with
  | nil => intro _; rfl
  | cons a l ih =>
    intro h
    have ih' := ih (fun b hb => h b (List.mem_cons_of_mem _ hb))
    cases hf : f a with
    | none =>
      by_cases hp : p a = true
      · rw [List.filter_cons_of_pos hp, List.filterMap_cons_none hf, List.filterMap_cons_none hf, ih']
      · rw [List.filter_cons_of_neg hp, List.filterMap_cons_none hf, ih']
    | some t =>
      have hpq := h a (List.mem_cons_self _ _) t hf
      by_cases hp : p a = true
      · rw [List.filter_cons_of_pos hp, List.filterMap_cons_some hf, List.filterMap_cons_some hf,
          List.filter_cons_of_pos (by rw [← hpq]; exact hp), ih']
      · rw [List.filter_cons_of_neg hp, List.filterMap_cons_some hf,
          List.filter_cons_of_neg (by rw [← hpq]; exact hp), ih']

end memory

/-! ## Agreement of index and order -/

namespace memory

section ConsistencyLemmas
variable {K V : Type}

theorem consistent_iff (pder : Provider K V) :
    Consistent pder ↔
      pder.list.Nodup ∧
      (∀ sid a, mapGet pder.sessions sid = some a → a ∈ pder.list ∧ sidOf pder.heap a = some sid) ∧
      (∀ a ∈ pder.list, ∃ sid, sidOf pder.heap a = some sid ∧ mapGet pder.sessions sid = some a) := by
  constructor
  · intro hc
    exact ⟨hc.1, fun sid a h => hc.index h, fun a ha => hc.node ha⟩
  · rintro ⟨h1, h2, h3⟩
    refine ⟨h1, fun p _ a ha => h2 p.1 a ha, fun a ha => ?_⟩
    obtain ⟨sid, hs, hg⟩ := h3 a ha
    simp [hs, hg]

theorem consistent_pderInit : Consistent (pderInit : Provider K V) := by
  simp [Consistent, pderInit]

theorem sidOf_lt {heap : List (SessionStore K V)} {a : Nat} {sid : GoString}
    (h : sidOf heap a = some sid) : a < heap.length := by
  obtain ⟨st, hst, _⟩ := sidOf_eq_some h
  by_contra hge
  simp [List.getElem?_eq_none_iff.mpr (Nat.le_of_not_lt hge)] at hst

theorem sidOf_append_of_lt (heap : List (SessionStore K V)) (x : SessionStore K V) {a : Nat}
    (h : a < heap.length) : sidOf (heap ++ [x]) a = sidOf heap a := by
  simp [sidOf, List.getElem?_append_left h]

theorem sidOf_append_length (heap : List (SessionStore K V)) (x : SessionStore K V) :
    sidOf (heap ++ [x]) heap.length = some x.sid := by
  simp [sidOf]

theorem consistent_SessionInit (pder : Provider K V) (sid : GoString) (now : Time)
    (hc : Consistent pder) (hfresh : mapGet pder.sessions sid = none) :
    Consistent (SessionInit pder sid now).1 := by
  rw [consistent_iff] at hc ⊢
  obtain ⟨h1, h2, h3⟩ := hc
  have hnew : pder.heap.length ∉ pder.list := by
    intro hmem
    obtain ⟨t, ht, _⟩ := h3 _ hmem
    exact Nat.lt_irrefl _ (sidOf_lt ht)
  simp only [SessionInit]
  refine ⟨?_, ?_, ?_⟩
  · exact List.nodup_append.mpr ⟨h1, List.nodup_singleton _, by
      intro a ha hb
      simp only [List.mem_singleton] at hb
      subst hb
      exact hnew ha⟩
  · intro t a hta
    by_cases hts : sid = t
    · subst hts
      rw [mapGet_mapSet_self] at hta
      cases hta
      exact ⟨by simp, sidOf_append_length _ _⟩
    · rw [mapGet_mapSet_ne _ _ hts] at hta
      obtain ⟨hal, has⟩ := h2 t a hta
      exact ⟨List.mem_append_left _ hal, by rw [sidOf_append_of_lt _ _ (sidOf_lt has)]; exact has⟩
  · intro a ha
    rcases List.mem_append.mp ha with ha | ha
    · obtain ⟨t, ht, hg⟩ := h3 a ha
      have hts : sid ≠ t := by
        intro h; subst h; rw [hfresh] at hg; cases hg
      exact ⟨t, by rw [sidOf_append_of_lt _ _ (sidOf_lt ht)]; exact ht,
        by rw [mapGet_mapSet_ne _ _ hts]; exact hg⟩
    · simp only [List.mem_singleton] at ha
      subst ha
      exact ⟨sid, sidOf_append_length _ _, mapGet_mapSet_self _ _ _⟩

theorem consistent_SessionRead (pder : Provider K V) (sid : GoString) (now : Time)
    (hc : Consistent pder) : Consistent (SessionRead pder sid now).1 := by
  unfold SessionRead
  cases h : mapGet pder.sessions sid with
  | none => exact consistent_SessionInit pder sid now hc h
  | some e => exact hc

theorem mem_listRemove (l : List Nat) (e a : Nat) : a ∈ listRemove l e ↔ a ∈ l ∧ a ≠ e := by
  simp [listRemove, List.mem_filter]

/-- Removing a token from the index together with its node keeps index and order in agreement. -/
theorem consistent_remove (pder : Provider K V) (sid : GoString) (e : Nat)
    (hc : Consistent pder) (hget : mapGet pder.sessions sid = some e) :
    Consistent { pder with sessions := mapDelete pder.sessions sid,
                           list := listRemove pder.list e } := by
  have hes := (hc.index hget).2
  rw [consistent_iff] at hc ⊢
  obtain ⟨h1, h2, h3⟩ := hc
  refine ⟨List.Nodup.filter _ h1, ?_, ?_⟩
  · intro t a hta
    simp only [mapGet_mapDelete] at hta
    by_cases hts : sid = t
    · simp [hts] at hta
    · rw [if_neg hts] at hta
      obtain ⟨hal, has⟩ := h2 t a hta
      refine ⟨(mem_listRemove _ _ _).mpr ⟨hal, ?_⟩, has⟩
      intro hae
      subst hae
      rw [hes] at has
      exact hts (Option.some.inj has)
  · intro a ha
    obtain ⟨hal, hae⟩ := (mem_listRemove _ _ _).mp ha
    obtain ⟨t, ht, hg⟩ := h3 a hal
    have hts : sid ≠ t := by
      intro h
      subst h
      rw [hget] at hg
      exact hae (Option.some.inj hg).symm
    exact ⟨t, ht, by simp only [mapGet_mapDelete, if_neg hts]; exact hg⟩

theorem consistent_SessionDestroy (pder : Provider K V) (sid : GoString)
    (hc : Consistent pder) : Consistent (SessionDestroy pder sid).1 := by
  unfold SessionDestroy
  cases h : mapGet pder.sessions sid with
  | none => exact hc
  | some e => exact consistent_remove pder sid e hc h

theorem consistent_gcLoop (m : Int) (now : Time) :
    ∀ (fuel : Nat) (pder : Provider K V), Consistent pder → Consistent (gcLoop m now fuel pder) := by
  intro fuel
  induction fuel with
  | zero => intro pder hc; exact hc
  | succ fuel ih =>
    intro pder hc
    cases hb : listBack pder.list with
    | none =>
      have hstop : gcLoop m now (fuel + 1) pder = pder := by simp [gcLoop, hb]
      rw [hstop]; exact hc
    | some e =>
      cases hd : deref pder e with
      | none =>
        have hstop : gcLoop m now (fuel + 1) pder = pder := by simp [gcLoop, hb, hd]
        rw [hstop]; exact hc
      | some st =>
        by_cases hx : gcExpired st m now = true
        · have hgo : gcLoop m now (fuel + 1) pder =
              gcLoop m now fuel { pder with list := listRemove pder.list e,
                                            sessions := mapDelete pder.sessions st.sid } := by
            simp [gcLoop, hb, hd, hx]
          rw [hgo]
          apply ih
          have hmem : e ∈ pder.list := by
            rw [list_eq_concat_of_getLast? _ _ hb]; simp
          obtain ⟨sid, hsid, hget⟩ := hc.node hmem
          have hs : sid = st.sid := by
            simp only [sidOf, show pder.heap[e]? = some st from hd, Option.map_some'] at hsid
            exact (Option.some.inj hsid).symm
          subst hs
          exact consistent_remove pder st.sid e hc hget
        · have hstop : gcLoop m now (fuel + 1) pder = pder := by simp [gcLoop, hb, hd, hx]
          rw [hstop]; exact hc

theorem consistent_SessionGC (pder : Provider K V) (m : Int) (now : Time)
    (hc : Consistent pder) : Consistent (SessionGC pder m now) :=
  consistent_gcLoop m now _ pder hc

theorem consistent_SessionUpdate (pder : Provider K V) (sid : GoString) (now : Time)
    (hc : Consistent pder) : Consistent (SessionUpdate pder sid now).1 := by
  unfold SessionUpdate
  cases h : mapGet pder.sessions sid with
  | none => exact hc
  | some e =>
    have hel := (hc.index h).1
    rw [consistent_iff] at hc ⊢
    obtain ⟨h1, h2, h3⟩ := hc
    have hsid : ∀ a, sidOf (setTimeAccessed pder.heap e now) a = sidOf pder.heap a := by
      intro a
      rw [sidOf_eq_stamp, stamp_setTimeAccessed, sidOf_eq_stamp]
      cases stamp pder.heap a with
      | none => rfl
      | some p => by_cases hh : a = e <;> simp [hh]
    have hmem : ∀ a, a ∈ listMoveToFront pder.list e ↔ a ∈ pder.list := by
      intro a
      rw [listMoveToFront, if_pos hel, List.mem_cons, mem_listRemove]
      constructor
      · rintro (h | h)
        · exact h ▸ hel
        · exact h.1
      · intro ha
        by_cases hae : a = e
        · exact Or.inl hae
        · exact Or.inr ⟨ha, hae⟩
    refine ⟨?_, ?_, ?_⟩
    · simp only [listMoveToFront, if_pos hel]
      exact List.nodup_cons.mpr ⟨by simp [mem_listRemove], List.Nodup.filter _ h1⟩
    · intro t a hta
      obtain ⟨hal, has⟩ := h2 t a hta
      exact ⟨(hmem a).mpr hal, by simp only [hsid]; exact has⟩
    · intro a ha
      obtain ⟨t, ht, hg⟩ := h3 a ((hmem a).mp ha)
      exact ⟨t, by simp only [hsid]; exact ht, hg⟩

theorem consistent_access [DecidableEq K] (pder : Provider K V) (st : Nat) (op : Access K V)
    (now : Time) (hc : Consistent pder) : Consistent (access pder st op now) := by
  cases hd : deref pder st with
  | none =>
    have : access pder st op now = pder := by
      cases op <;> simp [access, SessionStore.Get, SessionStore.Set, SessionStore.Delete, hd]
    rw [this]; exact hc
  | some s =>
    obtain ⟨heap', hst, hacc⟩ := access_eq pder st op now s hd
    rw [hacc]
    apply consistent_SessionUpdate
    have hsid : ∀ a, sidOf heap' a = sidOf pder.heap a := by
      intro a; rw [sidOf_eq_stamp, hst, sidOf_eq_stamp]
    rw [consistent_iff] at hc ⊢
    obtain ⟨h1, h2, h3⟩ := hc
    refine ⟨h1, ?_, ?_⟩
    · intro t a hta
      obtain ⟨hal, has⟩ := h2 t a hta
      exact ⟨hal, by simp only [hsid]; exact has⟩
    · intro a ha
      obtain ⟨t, ht, hg⟩ := h3 a ha
      exact ⟨t, by simp only [hsid]; exact ht, hg⟩

end ConsistencyLemmas

/-- From a consistent state, a sequence of calls whose `SessionInit` calls are all on
tokens missing from the index ends in a consistent state. -/
theorem consistent_run {K V : Type} [DecidableEq K] :
    ∀ (ops : List (Op K V)) (pder : Provider K V), Consistent pder → freshInits pder ops = true →
      Consistent (run pder ops) := by
  intro ops
  induction ops with
  | nil => intro pder hc _; exact hc
  | cons op ops ih =>
    intro pder hc hf
    simp only [freshInits, Bool.and_eq_true] at hf
    obtain ⟨hop, hrest⟩ := hf
    have hstep : Consistent (step pder op) := by
      cases op with
      | init sid now => exact consistent_SessionInit pder sid now hc (by simpa [Op.fresh] using hop)
      | read sid now => exact consistent_SessionRead pder sid now hc
      | update sid now => exact consistent_SessionUpdate pder sid now hc
      | destroy sid => exact consistent_SessionDestroy pder sid hc
      | gc m now => exact consistent_SessionGC pder m now hc
      | store st op now => exact consistent_access pder st op now hc
    exact ih (step pder op) hstep hrest

end memory

/-! ## Claims on recency and on the invariants -/

namespace memory

/-- Claim C6, evaluated: after `SessionInit(A)` at second 0 and `SessionInit(B)` at second
200 the list is `A, B`, because `SessionInit` pushes at the back. `SessionGC(100)` at
second 200 inspects `B`, finds it live and stops: session `A`, stale by 100 seconds,
stays in the list and in the index. -/
theorem SessionGC_leaves_stale_session :
    clockMonotone exSweep ∧
    (run pderInit exSweep).list = [0, 1] ∧
    order (run pderInit exSweep) = [[65], [66]] ∧
    mapGet (run pderInit exSweep).sessions [65] = some 0 ∧
    lastAccessed (run pderInit exSweep).heap 0 = some 0 ∧
    stale (run pderInit exSweep).heap 100 200000000000 0 = true := by
  decide

/-- Claim C7: in a consistent state, after accesses (`Get`, `Set` or `Delete`) to the
stores of distinct tokens `t1, ..., tn` of the index, in that order, the tokens of the
list read head to tail are `tn, ..., t1` followed by the untouched tokens in their
previous order, every accessed store carries the time of its access, and the index is
as before. -/
theorem recency_order {K V : Type} [DecidableEq K] (pder : Provider K V) (xs : List (GoString × Access K V × Time))
    (hc : Consistent pder) (hnd : (xs.map (fun x => x.1)).Nodup)
    (hin : ∀ x ∈ xs, (mapGet pder.sessions x.1).isSome = true) :
    order (touchAll pder xs) =
      (xs.map (fun x => x.1)).reverse ++
        (order pder).filter (fun t => decide (t ∉ xs.map (fun x => x.1))) ∧
    (∀ x ∈ xs, ∀ a ∈ mapGet pder.sessions x.1,
      (deref (touchAll pder xs) a).map (fun st => st.timeAccessed) = some x.2.2) ∧
    (touchAll pder xs).sessions = pder.sessions := by
  obtain ⟨h1, h2, h3, h4⟩ := touchAll_spec pder hc xs hnd hin
  refine ⟨?_, ?_, h1⟩
  · have hsid : sidOf (touchAll pder xs).heap = sidOf pder.heap := funext h2
    unfold order
    rw [hsid, h3, List.filterMap_append]
    congr 1
    · have hh : (handles pder xs).filterMap (sidOf pder.heap) = xs.map (fun x => x.1) := by
        unfold handles
        rw [List.filterMap_filterMap, ← List.filterMap_eq_map]
        apply List.filterMap_congr
        intro x hx
        obtain ⟨st, hst⟩ := Option.isSome_iff_exists.mp (hin x hx)
        simp [hst, (hc.index hst).2]
      rw [List.filterMap_reverse, hh]
    · apply filterMap_filter_comm
      intro a ha t hat
      obtain ⟨sid, hsid', hget⟩ := hc.node ha
      rw [hat] at hsid'
      have hts : t = sid := Option.some.inj hsid'
      subst hts
      have hiff : a ∈ handles pder xs ↔ t ∈ xs.map (fun x => x.1) := by
        constructor
        · intro hmem
          obtain ⟨y, hy, hya⟩ := List.mem_filterMap.mp hmem
          have hy1 := (hc.index hya).2
          rw [hat] at hy1
          exact List.mem_map.mpr ⟨y, hy, (Option.some.inj hy1).symm⟩
        · intro hmem
          obtain ⟨y, hy, hyt⟩ := List.mem_map.mp hmem
          have hyt' : y.1 = t := hyt
          exact List.mem_filterMap.mpr ⟨y, hy, by rw [hyt']; exact hget⟩
      by_cases hm : a ∈ handles pder xs
      · simp [hm, hiff.mp hm]
      · have hm' : t ∉ xs.map (fun x => x.1) := fun h => hm (hiff.mpr h)
        simp only [hm, hm', not_false_eq_true, decide_True]
  · intro x hx a ha
    have h := h4 x hx a ha
    simp only [stamp, Option.map_map] at h
    simpa [deref] using h

/-- Witness for C7: accessing `A`, `B`, `C` in `exAges` gives the order `C, B, A, D`. -/
theorem recency_order_witness :
    Consistent exAges ∧ (exAccesses.map (fun x => x.1)).Nodup ∧
    (∀ x ∈ exAccesses, (mapGet exAges.sessions x.1).isSome = true) ∧
    order exAges = [[68], [67], [66], [65]] ∧
    order (touchAll exAges exAccesses) = [[67], [66], [65], [68]] ∧
    order (touchAll exAges exAccesses) =
      (exAccesses.map (fun x => x.1)).reverse ++
        (order exAges).filter (fun t => decide (t ∉ exAccesses.map (fun x => x.1))) :=
  ⟨by decide, by decide, by decide, by decide, by decide,
    (recency_order exAges exAccesses (by decide) (by decide) (by decide)).1⟩

/-- Claim C8, evaluated: after `SessionInit(A)` at second 0 and `SessionInit(B)` at second
10 the head of the list is `A`, last accessed at second 0, and the tail is `B`, last
accessed at second 10: the list is not sorted by last access descending. -/
theorem SessionInit_breaks_recency_sorting :
    clockMonotone exTwoInits ∧
    (run pderInit exTwoInits).list = [0, 1] ∧
    lastAccessed (run pderInit exTwoInits).heap 0 = some 0 ∧
    lastAccessed (run pderInit exTwoInits).heap 1 = some 10 ∧
    ¬ SortedByRecency (run pderInit exTwoInits) := by
  decide

/-- Counterexample for C9: after two `SessionInit` calls on the token `A` the list holds
two nodes for `A` and the index records the second, so index and order disagree. -/
theorem duplicate_SessionInit_inconsistent :
    order (run pderInit exDuplicate) = [[65], [65]] ∧
    mapGet (run pderInit exDuplicate).sessions [65] = some 1 ∧
    ¬ Consistent (run pderInit exDuplicate) := by
  decide

/-- Claim C9, amended: every sequence of `SessionInit`, `SessionRead`, `SessionUpdate`,
`SessionDestroy`, `SessionGC` and store accesses with arbitrary arguments, run on the
empty provider, in which `SessionInit` is only called on tokens that are not in the
index at that moment, ends in a state where index and order agree. -/
theorem consistent_of_fresh_inits {K V : Type} [DecidableEq K] (ops : List (Op K V))
    (hf : freshInits (pderInit : Provider K V) ops = true) :
    Consistent (run (pderInit : Provider K V) ops) :=
  consistent_run ops pderInit consistent_pderInit hf

/-- Witness for C9: a create, a read that creates, an update, a destroy and a sweep on
the empty provider. -/
theorem consistent_of_fresh_inits_witness :
    freshInits (pderInit : Provider Nat Nat)
      [Op.init [65] 0, Op.read [66] 1, Op.update [65] 2, Op.destroy [66], Op.gc 5 9] = true ∧
    Consistent (run (pderInit : Provider Nat Nat)
      [Op.init [65] 0, Op.read [66] 1, Op.update [65] 2, Op.destroy [66], Op.gc 5 9]) :=
  ⟨by decide,
    consistent_of_fresh_inits
      [Op.init [65] 0, Op.read [66] 1, Op.update [65] 2, Op.destroy [66], Op.gc 5 9]
      (by decide)⟩

/-- Claim C10, evaluated: `SessionInit(B)` at second 10 on the provider holding session
`A` returns a nil error and the new store 1 with token `B`, no values and access time
second 10, and the index maps `B` to it; the new node is at the back of the list, the
head is still the node of `A`. -/
theorem SessionInit_pushes_at_back :
    (SessionInit (run pderInit [Op.init [65] 0] : Provider Nat Nat) [66] 10000000000).2 =
      (1, none) ∧
    deref (SessionInit (run pderInit [Op.init [65] 0] : Provider Nat Nat) [66] 10000000000).1 1 =
      some { sid := [66], timeAccessed := 10000000000, value := [] } ∧
    mapGet (SessionInit (run pderInit [Op.init [65] 0] : Provider Nat Nat) [66]
      10000000000).1.sessions [66] = some 1 ∧
    (run pderInit [Op.init [65] 0] : Provider Nat Nat).list = [0] ∧
    (SessionInit (run pderInit [Op.init [65] 0] : Provider Nat Nat) [66] 10000000000).1.list =
      [0, 1] ∧
    (SessionInit (run pderInit [Op.init [65] 0] : Provider Nat Nat) [66]
      10000000000).1.list.head? = some 0 := by
  decide

end memory

/-! ## Lock events and runs of `SessionStart` -/

namespace memory

open session

section LockLemmas
variable {K V : Type}

theorem lockDiscipline_gcLoopEvents (m : Int) (now : Time) :
    ∀ (fuel : Nat) (pder : Provider K V),
      lockDiscipline true (gcLoopEvents m now fuel pder ++ [Event.unlock]) = true := by
  intro fuel
  induction fuel with
  | zero => intro pder; rfl
  | succ fuel ih =>
    intro pder
    cases hb : listBack pder.list with
    | none =>
      have hev : gcLoopEvents m now (fuel + 1) pder = [Event.readOrder] := by
        simp [gcLoopEvents, hb]
      rw [hev]; rfl
    | some e =>
      cases hd : deref pder e with
      | none =>
        have hev : gcLoopEvents m now (fuel + 1) pder = [Event.readOrder] := by
          simp [gcLoopEvents, hb, hd]
        rw [hev]; rfl
      | some st =>
        by_cases hx : gcExpired st m now = true
        · have hev : gcLoopEvents m now (fuel + 1) pder =
              Event.readOrder :: Event.writeOrder :: Event.writeIndex ::
                gcLoopEvents m now fuel
                  { pder with list := listRemove pder.list e,
                              sessions := mapDelete pder.sessions st.sid } := by
            simp [gcLoopEvents, hb, hd, hx]
          rw [hev]
          simp only [List.cons_append, lockDiscipline, Bool.true_and]
          exact ih _
        · have hev : gcLoopEvents m now (fuel + 1) pder = [Event.readOrder] := by
            simp [gcLoopEvents, hb, hd, hx]
          rw [hev]; rfl

theorem lockDiscipline_lock (es : List Event) :
    lockDiscipline false (Event.lock :: es) = lockDiscipline true es := by
  simp [lockDiscipline]

theorem consistent_SessionStart (manager : Manager) (pder : Provider K V) (r : Request)
    (rnd : Option (List Byte)) (now : Time) (hc : Consistent pder)
    (hf : Manager.creates manager r = true →
      mapGet pder.sessions (Manager.sessionId rnd) = none) :
    Consistent (Manager.SessionStart manager pder r rnd now).1 := by
  unfold Manager.SessionStart
  unfold Manager.creates at hf
  cases hr : r.Cookie manager.cookieName with
  | none =>
    rw [hr] at hf
    exact consistent_SessionInit pder _ now hc (hf rfl)
  | some value =>
    rw [hr] at hf
    by_cases hv : value = []
    · simp only [hv, if_true]
      exact consistent_SessionInit pder _ now hc (hf (by simp [hv]))
    · simp only [hv, if_false]
      exact consistent_SessionRead pder _ now hc

theorem consistent_starts (manager : Manager) :
    ∀ (calls : List (Request × Option (List Byte) × Time)) (pder : Provider K V),
      Consistent pder → Manager.freshStarts manager pder calls = true →
      Consistent (Manager.starts manager pder calls) := by
  intro calls
  induction calls with
  | nil => intro pder hc _; exact hc
  | cons c calls ih =>
    intro pder hc hf
    simp only [Manager.freshStarts, Bool.and_eq_true, Bool.or_eq_true, Bool.not_eq_true',
      Option.isNone_iff_eq_none] at hf
    obtain ⟨hfirst, hrest⟩ := hf
    have hstep : Consistent (Manager.SessionStart manager pder c.1 c.2.1 c.2.2).1 := by
      apply consistent_SessionStart manager pder c.1 c.2.1 c.2.2 hc
      intro hcreate
      rcases hfirst with h | h
      · rw [h] at hcreate; exact absurd hcreate (by simp)
      · exact h
    exact ih _ hstep hrest

end LockLemmas

end memory

/-! ## Claims on destroy, read, the timer, the registry and the lock -/

namespace memory

/-- Claim C11: `SessionDestroy` returns a nil error; on a token of the index it removes
the index entry and the node, leaves every other index entry, the order of the other
nodes and the stores alone; on a token that is not in the index it leaves the state as
it is; destroying twice gives what destroying once gives. -/
theorem SessionDestroy_idempotent {K V : Type} (pder : Provider K V) (t : GoString) :
    (SessionDestroy pder t).2 = none ∧
    (∀ e, mapGet pder.sessions t = some e →
      mapGet (SessionDestroy pder t).1.sessions t = none ∧
      (∀ t', t' ≠ t → mapGet (SessionDestroy pder t).1.sessions t' = mapGet pder.sessions t') ∧
      e ∉ (SessionDestroy pder t).1.list ∧
      (SessionDestroy pder t).1.list = pder.list.filter (fun a => decide (a ≠ e)) ∧
      (SessionDestroy pder t).1.heap = pder.heap) ∧
    (mapGet pder.sessions t = none → (SessionDestroy pder t).1 = pder) ∧
    SessionDestroy (SessionDestroy pder t).1 t = SessionDestroy pder t := by
  cases h : mapGet pder.sessions t with
  | none =>
    have hd : SessionDestroy pder t = (pder, none) := by simp [SessionDestroy, h]
    refine ⟨?_, ?_, ?_, ?_⟩
    · rw [hd]
    · intro e he
      exact absurd he (by simp)
    · intro _
      rw [hd]
    · rw [hd]; exact hd
  | some e =>
    have hd : SessionDestroy pder t =
        ({ pder with sessions := mapDelete pder.sessions t, list := listRemove pder.list e },
          none) := by simp [SessionDestroy, h]
    refine ⟨?_, ?_, ?_, ?_⟩
    · rw [hd]
    · intro e' he'
      have hee : e = e' := Option.some.inj he'
      subst hee
      rw [hd]
      refine ⟨mapGet_mapDelete_self _ _, fun t' ht' => mapGet_mapDelete_ne _ (Ne.symm ht'), ?_,
        rfl, rfl⟩
      simp [mem_listRemove]
    · intro hn
      exact absurd hn (by simp)
    · rw [hd]
      simp only [SessionDestroy, mapGet_mapDelete_self]

/-- Witness for C11: destroying `B` in `exAges`. -/
theorem SessionDestroy_idempotent_witness :
    mapGet exAges.sessions [66] = some 1 ∧
    (SessionDestroy exAges [66]).1.list = [3, 2, 0] ∧
    mapGet (SessionDestroy exAges [66]).1.sessions [66] = none ∧
    SessionDestroy (SessionDestroy exAges [66]).1 [66] = SessionDestroy exAges [66] :=
  ⟨by decide, by decide,
    ((SessionDestroy_idempotent exAges [66]).2.1 1 (by decide)).1,
    (SessionDestroy_idempotent exAges [66]).2.2.2⟩

/-- Claim C12: on a token of the index `SessionRead` returns the stored session and a
nil error and leaves the whole provider state (index, order, every store with its
last access and values) as it is. -/
theorem SessionRead_hit_unchanged {K V : Type} (pder : Provider K V) (t : GoString) (now : Time) (e : Nat)
    (h : mapGet pder.sessions t = some e) :
    SessionRead pder t now = (pder, e, none) := by
  simp only [SessionRead, h]

/-- Witness for C12: reading `A` in `exAges`. -/
theorem SessionRead_hit_unchanged_witness :
    mapGet exAges.sessions [65] = some 0 ∧
    SessionRead exAges [65] 2000000000000 = (exAges, 0, none) :=
  ⟨by decide, SessionRead_hit_unchanged exAges [65] 2000000000000 0 (by decide)⟩

end memory

namespace session

open memory

/-- Claim C13, evaluated: `Manager.GC` hands `time.AfterFunc` the duration
`time.Duration(maxlifetime)`, that is `maxlifetime` nanoseconds. It equals
`maxlifetime` seconds only for `maxlifetime = 0`; for the lifetime 3600 of the example
the next sweep is due after 3600 nanoseconds, not after 3600000000000. -/
theorem Manager_GC_delay_is_nanoseconds {K V : Type} (manager : Manager)
    (pder : Provider K V) (now : Time) :
    (Manager.GC manager pder now).1 = SessionGC pder manager.maxlifetime now ∧
    (Manager.GC manager pder now).2 = manager.maxlifetime ∧
    ((Manager.GC manager pder now).2 = manager.maxlifetime * Second ↔
      manager.maxlifetime = 0) ∧
    (Manager.GC exManager pder now).2 = 3600 ∧
    exManager.maxlifetime * Second = 3600000000000 := by
  refine ⟨rfl, rfl, ?_, rfl, by decide⟩
  simp only [Manager.GC, Second]
  constructor
  · intro h; omega
  · intro h; rw [h]; rfl

/-- Claim C14: `Register` panics exactly when the provider is nil or the name is already
registered; when it panics the registry is as before; when it returns, the registry maps
the name to the provider and every other entry is as before. -/
theorem Register_panics_iff {P : Type} (provides : List (GoString × Option P)) (name : GoString)
    (provide : Option P) :
    ((Register provides name provide).2 ≠ none ↔
      (provide = none ∨ (mapGet provides name).isSome = true)) ∧
    ((Register provides name provide).2 ≠ none → (Register provides name provide).1 = provides) ∧
    ((Register provides name provide).2 = none →
      mapGet (Register provides name provide).1 name = some provide ∧
      ∀ n, n ≠ name → mapGet (Register provides name provide).1 n = mapGet provides n) := by
  cases provide with
  | none => simp [Register]
  | some p =>
    cases h : mapGet provides name with
    | some q => simp [Register, h]
    | none =>
      simp only [Register, h]
      refine ⟨by simp, by simp, fun _ => ⟨mapGet_mapSet_self _ _ _, fun n hn => ?_⟩⟩
      exact mapGet_mapSet_ne _ _ (Ne.symm hn)

/-- Witness for C14: registering provider 1 under the new name `f`, and under the
taken name `m`. -/
theorem Register_panics_iff_witness :
    (Register exProvides [102] (some 1)).2 = none ∧
    mapGet (Register exProvides [102] (some 1)).1 [102] = some (some 1) ∧
    (Register exProvides [109] (some 1)).2 ≠ none ∧
    (Register exProvides [109] (some 1)).1 = exProvides :=
  ⟨by decide,
    ((Register_panics_iff exProvides [102] (some 1)).2.2 (by decide)).1,
    by decide,
    (Register_panics_iff exProvides [109] (some 1)).2.1 (by decide)⟩

/-- Claim C15: `NewManager` returns a nil manager and a non-nil error exactly when the
provider name is not in the registry; otherwise it returns a nil error and a manager
with the registered provider, the given cookie name and the given lifetime; the
registry is as before in both cases. -/
theorem NewManager_fails_iff {P : Type} (provides : List (GoString × Option P))
    (providerName cookieName : GoString) (maxlifetime : Int) :
    (((NewManager provides providerName cookieName maxlifetime).2.1 = none ∧
        (NewManager provides providerName cookieName maxlifetime).2.2 ≠ none) ↔
      mapGet provides providerName = none) ∧
    (∀ provider, mapGet provides providerName = some provider →
      NewManager provides providerName cookieName maxlifetime =
        (provides, some { provider := provider, cookieName := cookieName,
                          maxlifetime := maxlifetime }, none)) ∧
    (NewManager provides providerName cookieName maxlifetime).1 = provides := by
  cases h : mapGet provides providerName with
  | none => simp [NewManager, h]
  | some q => simp [NewManager, h]

/-- Witness for C15: the call of `main.go`, with the name `m` for `memory`. -/
theorem NewManager_fails_iff_witness :
    mapGet exProvides [109] = some (some 0) ∧
    NewManager exProvides [109] [115] 3600 =
      (exProvides, some { provider := some 0, cookieName := [115], maxlifetime := 3600 },
        none) ∧
    mapGet exProvides [102] = none ∧
    (NewManager exProvides [102] [115] 3600).2.1 = none :=
  ⟨by decide,
    (NewManager_fails_iff exProvides [109] [115] 3600).2.1 (some 0) (by decide),
    by decide,
    ((NewManager_fails_iff exProvides [102] [115] 3600).1.mpr (by decide)).1⟩

end session

namespace memory

open session

/-- Claim C16, evaluated: `SessionInit`, `SessionUpdate` and `SessionGC` touch the index
and the order only between `Lock` and `Unlock`. `SessionRead` and `SessionDestroy` never
take the mutex: for every state and token `SessionRead` looks the token up in the map,
and `SessionDestroy` looks it up, deletes it and removes the node, without holding it. -/
theorem SessionRead_SessionDestroy_unguarded {K V : Type} (pder : Provider K V) (sid : GoString) (m : Int) (now : Time) :
    guarded (SessionInit.events) = true ∧
    guarded (SessionUpdate.events pder sid) = true ∧
    guarded (SessionGC.events pder m now) = true ∧
    guarded (SessionRead.events pder sid) = false ∧
    guarded (SessionDestroy.events pder sid) = false := by
  refine ⟨rfl, ?_, ?_, rfl, rfl⟩
  · unfold SessionUpdate.events
    cases mapGet pder.sessions sid <;> rfl
  · unfold guarded SessionGC.events
    rw [lockDiscipline_lock]
    exact lockDiscipline_gcLoopEvents m now _ pder

/-- Claim C17, evaluated: session `A` was last accessed at second 1 and the lifetime is
the largest `int64`. At second 1 the session has age 0, and the sum of last access and
lifetime is not below the clock; in `int64` the sum wraps to a negative number, the
expiry test succeeds and `SessionGC` removes `A` from the list and from the index. -/
theorem SessionGC_removes_live_on_overflow :
    Consistent exOverflow ∧ 0 ∈ exOverflow.list ∧
    lastAccessed exOverflow.heap 0 = some 1 ∧
    stale exOverflow.heap 9223372036854775807 1000000000 0 = false ∧
    (SessionGC exOverflow 9223372036854775807 1000000000).list = [] ∧
    mapGet (SessionGC exOverflow 9223372036854775807 1000000000).sessions [65] = none := by
  decide

/-- In a consistent state, sorted or not, in which `lastAccessed + maxlifetime` stays
inside `int64`, the nodes `SessionGC` removes are a tail segment of the list and all
stale, every index entry it drops belongs to a removed node, every session that is not
stale stays in the list and in the index, and no store is touched. -/
theorem SessionGC_keeps_live_sessions {K V : Type} (pder : Provider K V) (m : Int) (now : Time)
    (hc : Consistent pder) (ho : NoOverflow pder m) :
    ∃ removed : List Nat,
      pder.list = (SessionGC pder m now).list ++ removed ∧
      (∀ a ∈ removed, stale pder.heap m now a = true) ∧
      (∀ sid a, mapGet pder.sessions sid = some a →
        mapGet (SessionGC pder m now).sessions sid = none → a ∈ removed) ∧
      (∀ sid a, mapGet pder.sessions sid = some a → stale pder.heap m now a = false →
        a ∈ (SessionGC pder m now).list ∧ mapGet (SessionGC pder m now).sessions sid = some a) ∧
      (SessionGC pder m now).heap = pder.heap := by
  obtain ⟨removed, h1, h2, _, h4, h5⟩ :=
    gcLoop_spec m now pder.list.length pder hc.1 (Nat.le_refl _)
  have hremoved : ∀ a ∈ removed, stale pder.heap m now a = true := by
    intro a ha
    rw [← expiredAt_eq_stale pder m now ho a (by rw [h1]; exact List.mem_append_right _ ha)]
    exact h2 a ha
  have hidx : ∀ sid a, mapGet pder.sessions sid = some a →
      (sid ∈ removed.filterMap (sidOf pder.heap) ↔ a ∈ removed) := by
    intro sid a hg
    constructor
    · intro hin
      obtain ⟨a', ha', hs'⟩ := List.mem_filterMap.mp hin
      have ha'l : a' ∈ pder.list := by rw [h1]; exact List.mem_append_right _ ha'
      obtain ⟨sid', hsid', hget'⟩ := hc.node ha'l
      rw [hs'] at hsid'
      have hss : sid = sid' := Option.some.inj hsid'
      subst hss
      rw [hg] at hget'
      rw [Option.some.inj hget']
      exact ha'
    · intro ha
      exact List.mem_filterMap.mpr ⟨a, ha, (hc.index hg).2⟩
  refine ⟨removed, h1, hremoved, ?_, ?_, h4⟩
  · intro sid a hg hnone
    by_contra hnot
    have hn : sid ∉ removed.filterMap (sidOf pder.heap) := fun h => hnot ((hidx sid a hg).mp h)
    have h5' := h5 sid
    rw [if_neg hn, hg] at h5'
    unfold SessionGC at hnone
    rw [h5'] at hnone
    exact absurd hnone (by simp)
  · intro sid a hg hlive
    have hnot : a ∉ removed := by
      intro ha
      rw [hremoved a ha] at hlive
      exact absurd hlive (by simp)
    have hn : sid ∉ removed.filterMap (sidOf pder.heap) := fun h => hnot ((hidx sid a hg).mp h)
    refine ⟨?_, ?_⟩
    · have hal := (hc.index hg).1
      rw [h1] at hal
      rcases List.mem_append.mp hal with h | h
      · exact h
      · exact absurd h hnot
    · have h5' := h5 sid
      rw [if_neg hn, hg] at h5'
      exact h5'

/-- The sweep of `exAges` with `maxlifetime` 100 at second 1000 removes a tail segment
of stale sessions. -/
theorem SessionGC_keeps_live_sessions_witness :
    Consistent exAges ∧ NoOverflow exAges 100 ∧
    ∃ removed : List Nat,
      exAges.list = (SessionGC exAges 100 1000000000000).list ++ removed ∧
      (∀ a ∈ removed, stale exAges.heap 100 1000000000000 a = true) :=
  ⟨by decide, by decide,
    (SessionGC_keeps_live_sessions exAges 100 1000000000000 (by decide) (by decide)).imp
      (fun _ h => ⟨h.1, h.2.1⟩)⟩

/-- Counterexample for C18: a client presents the cookie of a token that has not been
generated yet, and `SessionRead` creates session 0 for it; then a request without
cookie makes `SessionStart` generate that very token. The run generates one token, so
its generated tokens are distinct, yet `SessionInit` pushes a second node for the token
and the index records only node 1: index and order disagree. -/
theorem SessionStart_forged_cookie_inconsistent :
    Consistent (pderInit : Provider Nat Nat) ∧
    Manager.generated exManager exForged = [Manager.sessionId (some exRandom)] ∧
    (Manager.generated exManager exForged).Nodup ∧
    (Manager.starts exManager (pderInit : Provider Nat Nat) exForged).list = [0, 1] ∧
    order (Manager.starts exManager (pderInit : Provider Nat Nat) exForged) =
      [Manager.sessionId (some exRandom), Manager.sessionId (some exRandom)] ∧
    mapGet (Manager.starts exManager (pderInit : Provider Nat Nat) exForged).sessions
      (Manager.sessionId (some exRandom)) = some 1 ∧
    ¬ Consistent (Manager.starts exManager (pderInit : Provider Nat Nat) exForged) := by
  decide

/-- Claim C18, amended: from a consistent state, `SessionRead`, `SessionDestroy`,
`SessionUpdate` and `SessionGC` with any arguments, and `SessionInit` on a token that is
not in the index, give a consistent state; so does every run of `Manager.SessionStart`
in which each generated token is not in the index when it is generated. -/
theorem consistency_preserved {K V : Type} (manager : Manager) (pder : Provider K V) (t : GoString) (m : Int) (now : Time)
    (calls : List (Request × Option (List Byte) × Time)) (hc : Consistent pder) :
    Consistent (SessionRead pder t now).1 ∧
    Consistent (SessionDestroy pder t).1 ∧
    Consistent (SessionUpdate pder t now).1 ∧
    Consistent (SessionGC pder m now) ∧
    (mapGet pder.sessions t = none → Consistent (SessionInit pder t now).1) ∧
    (Manager.freshStarts manager pder calls = true →
      Consistent (Manager.starts manager pder calls)) :=
  ⟨consistent_SessionRead pder t now hc, consistent_SessionDestroy pder t hc,
    consistent_SessionUpdate pder t now hc, consistent_SessionGC pder m now hc,
    fun h => consistent_SessionInit pder t now hc h,
    fun h => consistent_starts manager calls pder hc h⟩

/-- Witness for C18: `exOverflow` holds `A`; token `B` is new, and so is the token
generated in `exCalls`. -/
theorem consistency_preserved_witness :
    Consistent exOverflow ∧
    mapGet exOverflow.sessions [66] = none ∧
    Consistent (SessionInit exOverflow [66] 7).1 ∧
    Manager.freshStarts exManager exOverflow exCalls = true ∧
    Consistent (Manager.starts exManager exOverflow exCalls) :=
  ⟨by decide, by decide,
    (consistency_preserved exManager exOverflow [66] 5 7 exCalls (by decide)).2.2.2.2.1
      (by decide),
    by decide,
    (consistency_preserved exManager exOverflow [66] 5 7 exCalls (by decide)).2.2.2.2.2
      (by decide)⟩

/-- Claim C19: for every token that is not in the index, `SessionUpdate` returns nil and
the same state. On a store carrying such a token, `Get` returns the store's own entry
and the same state, `Set` and `Delete` replace the value map of that store and nothing
else, and with any key, also one that panics, the three methods leave the index, the
order, the token and last access of every store and every other store as they were. -/
theorem stale_handle_keeps_provider {K V : Type} [DecidableEq K] (pder : Provider K V)
    (t : GoString) (now : Time) (ht : mapGet pder.sessions t = none) :
    SessionUpdate pder t now = (pder, none) ∧
    ∀ (st : Nat) (s : SessionStore K V), deref pder st = some s → s.sid = t →
      (∀ (k : K) (value : Option V),
        SessionStore.Get pder st (Key.val k) now =
          (pder, Outcome.returns ((mapGet s.value (Key.val k)).getD none)) ∧
        SessionStore.Set pder st (Key.val k) value now =
          ({ pder with heap := (pder.heap.set st
                { s with value := mapSet s.value (Key.val k) value }) },
            Outcome.returns none) ∧
        SessionStore.Delete pder st (Key.val k) now =
          ({ pder with heap := (pder.heap.set st
                { s with value := mapDelete s.value (Key.val k) }) },
            Outcome.returns none)) ∧
      (∀ (key : Key K) (value : Option V),
        sameUpToValues st pder (SessionStore.Get pder st key now).1 ∧
        sameUpToValues st pder (SessionStore.Set pder st key value now).1 ∧
        sameUpToValues st pder (SessionStore.Delete pder st key now).1) := by
  have hu : ∀ heap1 : List (SessionStore K V),
      SessionUpdate { pder with heap := heap1 } t now = ({ pder with heap := heap1 }, none) := by
    intro heap1
    simp only [SessionUpdate, ht]
  refine ⟨hu pder.heap, ?_⟩
  intro st s hs hst
  subst hst
  have hsame : sameUpToValues st pder pder := ⟨rfl, rfl, fun _ => rfl, fun _ _ => rfl⟩
  have hwrite : ∀ m : List (Key K × Option V),
      sameUpToValues st pder { pder with heap := pder.heap.set st { s with value := m } } := by
    intro m
    refine ⟨rfl, rfl, stamp_set_value pder.heap st s m hs, ?_⟩
    intro a ha
    simp [List.getElem?_set, Ne.symm ha]
  have hget : ∀ key : Key K, (SessionStore.Get pder st key now).1 = pder := by
    intro key
    rw [(Get_result pder st s key now hs).1, hu pder.heap]
  refine ⟨?_, ?_⟩
  · intro k value
    refine ⟨?_, ?_, ?_⟩
    · apply Prod.ext
      · exact hget (Key.val k)
      · rw [(Get_result pder st s (Key.val k) now hs).2]
        simp only [valueGet]
        cases mapGet s.value (Key.val k) with
        | none => rfl
        | some v => cases v <;> rfl
    · simp only [SessionStore.Set, hs, valueSet, hu]
    · simp only [SessionStore.Delete, hs, valueDelete, hu]
  · intro key value
    refine ⟨?_, ?_, ?_⟩
    · rw [hget key]; exact hsame
    · cases key with
      | val k =>
        simp only [SessionStore.Set, hs, valueSet, hu]
        exact hwrite _
      | nan =>
        simp only [SessionStore.Set, hs, valueSet, hu]
        exact hwrite _
      | unhashable =>
        simp only [SessionStore.Set, hs, valueSet]
        exact hsame
    · cases key with
      | val k =>
        simp only [SessionStore.Delete, hs, valueDelete, hu]
        exact hwrite _
      | nan =>
        simp only [SessionStore.Delete, hs, valueDelete, hu]
        exact hwrite _
      | unhashable =>
        simp only [SessionStore.Delete, hs, valueDelete]
        exact hsame

/-- Witness for C19: in `exGone` the token `A` is destroyed and its store is still at
address 0; the token `B` was never created. -/
theorem stale_handle_keeps_provider_witness :
    mapGet exGone.sessions [65] = none ∧ mapGet exGone.sessions [66] = none ∧
    deref exGone 0 = some { sid := [65], timeAccessed := 0, value := [] } ∧
    SessionUpdate exGone [65] 9 = (exGone, none) ∧
    SessionUpdate exGone [66] 9 = (exGone, none) ∧
    SessionStore.Set exGone 0 (Key.val 7) (some 9) 9 =
      ({ exGone with heap := (exGone.heap.set 0
            { sid := [65], timeAccessed := 0, value := mapSet [] (Key.val 7) (some 9) }) },
        Outcome.returns none) :=
  ⟨by decide, by decide, by decide,
    (stale_handle_keeps_provider exGone [65] 9 (by decide)).1,
    (stale_handle_keeps_provider exGone [66] 9 (by decide)).1,
    (((stale_handle_keeps_provider exGone [65] 9 (by decide)).2 0
      { sid := [65], timeAccessed := 0, value := [] } (by decide) rfl).1 7 (some 9)).2.1⟩

end memory
